import Mathlib

/-!
Verification of the SQL safety gate and the tabular export pipeline of a
database query/administration tool (Python backend under `src/backend/src`).

The Python sources are shallowly embedded:

* scalar cell values (`dict[str, Any]` rows) become `PyValue`
  (null / bool / int / str); Python dicts become association lists;
* generator functions (`yield`-based chunk producers) become functions
  returning `List String` of the yielded chunks, in order;
* Python's `range(0, len(rows), chunk_size)` slicing loop becomes
  `chunkList` (a fuel-structured equivalent of successive `take`/`drop`);
* exceptions become `Except`/`Option` results.

All definitions are executable so concrete witnesses evaluate by `simp`
with the definitional equations.
-/

namespace QueryTool

/-- Concatenation of a list of yielded string chunks, in order. -/
def concatAll : List String → String
  | [] => ""
  | s :: rest => s ++ concatAll rest

/-- Scalar value of a database result cell, as the Python code sees it:
`None`, `bool`, `int` or `str`.  (Dates and decimals reach the formatters
already converted to strings/numbers; floats are outside this model.) -/
inductive PyValue where
  | null
  | bool (b : Bool)
  | int (n : Int)
  | str (s : String)
deriving Repr, DecidableEq

/-- A result row: a Python `dict[str, Any]` modelled as an association
list in insertion order (keys unique in real rows; lookup takes the
first binding, as `dict` access would). -/
abbrev Row := List (String × PyValue)

/-- `row.get(col)`: `some v` when the key is present, `none` otherwise. -/
def rowGet (row : Row) (c : String) : Option PyValue :=
  match row with
  | [] => none
  | (k, v) :: rest => if k = c then some v else rowGet rest c

/-- Fuel-structured body of `chunkList`; `fuel` only forces structural
termination and is always instantiated with the list length. -/
def chunkListGo (c : Nat) : Nat → List α → List (List α)
  | _, [] => []
  | 0, _ :: _ => []
  | fuel + 1, l => l.take c :: chunkListGo c fuel (l.drop c)

/-- The successive slices `rows[i:i+c]` produced by Python's
`range(0, len(rows), c)` loop, for `c ≥ 1`.  (Python raises on step 0;
that case is excluded by hypothesis wherever `chunkList` is used.) -/
def chunkList (c : Nat) (l : List α) : List (List α) :=
  chunkListGo c l.length l

theorem chunkListGo_eq (c fuel : Nat) (l : List α) (hl : l ≠ []) (hf : fuel ≠ 0) :
    chunkListGo c fuel l = l.take c :: chunkListGo c (fuel - 1) (l.drop c) := by
  match fuel, l with
  | 0, _ => exact absurd rfl hf
  | fuel + 1, [] => exact absurd rfl hl
  | fuel + 1, x :: xs => rfl

theorem chunkListGo_flatten (c : Nat) (hc : 1 ≤ c) :
    ∀ (fuel : Nat) (l : List α), l.length ≤ fuel → (chunkListGo c fuel l).flatten = l := by
  intro fuel
  induction fuel with
  | zero =>
    intro l hl
    match l, hl with
    | [], _ => rfl
  | succ fuel ih =>
    intro l hl
    match l with
    | [] => rfl
    | x :: xs =>
      have hdrop : (List.drop c (x :: xs)).length ≤ fuel := by
        simp only [List.length_drop, List.length_cons] at *
        omega
      simp only [chunkListGo, List.flatten_cons, ih _ hdrop, List.take_append_drop]

theorem chunkList_flatten (c : Nat) (hc : 1 ≤ c) (l : List α) :
    (chunkList c l).flatten = l :=
  chunkListGo_flatten c hc l.length l (Nat.le_refl _)

theorem chunkListGo_ne_nil (c : Nat) (hc : 1 ≤ c) :
    ∀ (fuel : Nat) (l : List α), ∀ ch ∈ chunkListGo c fuel l, ch ≠ [] := by
  intro fuel
  induction fuel with
  | zero =>
    intro l ch hch
    match l with
    | [] => simp [chunkListGo] at hch
    | _ :: _ => simp [chunkListGo] at hch
  | succ fuel ih =>
    intro l ch hch
    match l with
    | [] => simp [chunkListGo] at hch
    | x :: xs =>
      simp only [chunkListGo, List.mem_cons] at hch
      rcases hch with h | h
      · subst h
        simp only [ne_eq, List.take_eq_nil_iff, List.cons_ne_nil, or_false]
        omega
      · exact ih _ ch h

theorem chunkList_ne_nil (c : Nat) (hc : 1 ≤ c) (l : List α) :
    ∀ ch ∈ chunkList c l, ch ≠ [] :=
  chunkListGo_ne_nil c hc l.length l

theorem concatAll_append (a b : List String) :
    concatAll (a ++ b) = concatAll a ++ concatAll b := by
  induction a with
  | nil => simp [concatAll]
  | cons x xs ih => simp [concatAll, ih, String.append_assoc]

/-!
### SQL safety gate (`src/backend/src/utils/sql_validator.py`)

`validate_and_transform_query` parses the SQL text with the external
`sqlglot` library (postgres dialect) and then works on the resulting AST:

* `isinstance(parsed, exp.Select)` — only a plain `exp.Select` top-level
  node passes; `exp.Insert`, `exp.Update`, `exp.Delete`, `exp.Drop`,
  `exp.Union` (a set operation, not a `Select` subclass) and every other
  node kind is rejected;
* `parsed.args.get("limit")` — the optional top-level LIMIT clause;
* `parsed.limit(1000)` — injects `LIMIT 1000` when absent;
* `parsed.sql(dialect="postgres")` — re-serializes the AST.

`sqlglot` itself is an external dependency, so parsing is modelled
abstractly: the validator is embedded over parse results.  A top-level
statement is a `SqlStmt`: a SELECT carries the serialization of
everything before/after its LIMIT slot plus the optional LIMIT value;
every non-SELECT node keeps only its text.  Re-serialization of a
re-parsed output is the identity (sqlglot's generator output is a fixed
point of parse-then-generate), which the AST-level statements below use
for the idempotence claim.
-/

/-- `exp.Select` node: `pre`/`post` are the serialized query text before
and after the LIMIT slot (`post` e.g. an OFFSET clause), `limit` the
optional top-level LIMIT argument. -/
structure SelectStmt where
  pre : String
  limit : Option Nat
  post : String
deriving Repr, DecidableEq

/-- Top-level parsed statement kind (`sqlglot` AST root classified). -/
inductive SqlStmt where
  | select (s : SelectStmt)
  | insert (sql : String)
  | update (sql : String)
  | delete (sql : String)
  | drop (sql : String)
  | union (sql : String)
  | command (sql : String)
deriving Repr, DecidableEq

/-- `parsed.sql(dialect="postgres")` for a SELECT node: the LIMIT clause
is rendered in its slot when present. -/
def renderSelect (s : SelectStmt) : String :=
  s.pre ++ (match s.limit with
            | some n => " LIMIT " ++ toString n
            | none => "") ++ s.post

/-- The exact message of the statement-kind `SQLValidationError`
raised at `sql_validator.py:58`. -/
def onlySelectMsg : String :=
  "Only SELECT statements are allowed. " ++
  "INSERT, UPDATE, DELETE, DROP, and other statements are forbidden."

/-- `isinstance(parsed, exp.Select)`. -/
def isSelectStmt : SqlStmt → Bool
  | .select _ => true
  | _ => false

/-- The body of `validate_and_transform_query` after parsing, kept at the
AST level: returns the transformed AST together with the serialized SQL
and the informational message, or the validation error message. -/
def validateAndTransformAst : SqlStmt → Except String (SqlStmt × String × String)
  | .select s =>
    match s.limit with
    | some _ => .ok (.select s, renderSelect s, "")
    | none =>
      let s' : SelectStmt := { s with limit := some 1000 }
      .ok (.select s', renderSelect s', "LIMIT 1000 automatically applied")
  | _ => .error onlySelectMsg

/-- `validate_and_transform_query` on a successfully parsed statement:
`(transformed_sql, message)` on success, the `SQLValidationError` message
otherwise. -/
def validateAndTransformQuery (stmt : SqlStmt) : Except String (String × String) :=
  match validateAndTransformAst stmt with
  | .ok (_, sql, msg) => .ok (sql, msg)
  | .error e => .error e

/-!
### CSV formatter (`src/backend/src/services/csv_formatter.py`)

`CSVFormatter.format_rows` yields the UTF-8 BOM (when `include_bom`),
then one chunk per `rows[i:i+chunk_size]` slice: the first chunk starts
with the header record, every chunk carries its rows as records written
by `csv.DictWriter` with `lineterminator='\r\n'`, `QUOTE_MINIMAL`,
`quotechar='"'` and no escapechar.  Empty chunk strings are skipped
(`if chunk_content:`), the BOM is not subject to that check.

`csv.QUOTE_MINIMAL` quoting (CPython `_csv`): a field is quoted iff it
contains the delimiter `,`, the quote char `"`, or a line-terminator
character (`\r` or `\n`); an embedded quote char is doubled.  A record
consisting of exactly one field that rendered empty and unquoted is
written as `""` so it is not mistaken for an empty record.
-/

/-- Python `str(value)` for the scalar values a cell can hold. -/
def pyStr : PyValue → String
  | .null => "None"
  | .bool true => "True"
  | .bool false => "False"
  | .int n => toString n
  | .str s => s

/-- `CSVFormatter._format_value`: `None` renders as the empty string,
everything else via `str(value)`; the `Option` is `row.get(col)`. -/
def csvFormatValue : Option PyValue → String
  | none => ""
  | some .null => ""
  | some v => pyStr v

/-- Does `csv.QUOTE_MINIMAL` quote this field? -/
def csvNeedsQuote (cs : List Char) : Bool :=
  cs.any fun c => c = ',' || c = '"' || c = '\r' || c = '\n'

/-- Double every embedded quote char. -/
def csvEscapeQuotes (cs : List Char) : List Char :=
  cs.flatMap fun c => if c = '"' then ['"', '"'] else [c]

/-- One CSV field under `QUOTE_MINIMAL`. -/
def csvField (s : String) : String :=
  if csvNeedsQuote s.data then "\"" ++ String.mk (csvEscapeQuotes s.data) ++ "\"" else s

/-- One CSV record (`writer.writerow`), CRLF-terminated, with the
single-empty-field special case. -/
def csvRecord (fields : List String) : String :=
  if fields = [""] then "\"\"" ++ "\r\n"
  else String.intercalate "," (fields.map csvField) ++ "\r\n"

/-- A data row as written by `DictWriter.writerow` on
`{col: self._format_value(row.get(col)) for col in columns}`. -/
def csvRowRecord (columns : List String) (row : Row) : String :=
  csvRecord (columns.map fun c => csvFormatValue (rowGet row c))

/-- One yielded chunk: header record first when `i == 0`, then the
records of the slice. -/
def csvChunkStr (columns : List String) (first : Bool) (chunk : List Row) : String :=
  (if first then csvRecord columns else "") ++
  concatAll (chunk.map (csvRowRecord columns))

/-- The data chunks for the computed row slices: header on the first,
empty chunk strings skipped. -/
def csvBodyChunks (columns : List String) : List (List Row) → List String
  | [] => []
  | first :: rest =>
    (csvChunkStr columns true first :: rest.map (csvChunkStr columns false)).filter
      (fun s => s ≠ "")

/-- `CSVFormatter.format_rows(columns, rows, chunk_size)`: the list of
yielded chunks, in order. -/
def csvFormatRows (includeBom : Bool) (columns : List String) (rows : List Row)
    (chunkSize : Nat) : List String :=
  (if includeBom then ["\uFEFF"] else []) ++
  csvBodyChunks columns (chunkList chunkSize rows)

/-- `CSVFormatter.format_complete(columns, rows)`: join of `format_rows`
with `chunk_size = len(rows) or 1`. -/
def csvFormatComplete (includeBom : Bool) (columns : List String) (rows : List Row) :
    String :=
  concatAll (csvFormatRows includeBom columns rows
    (if rows.length = 0 then 1 else rows.length))

/-!
### JSON formatter (`src/backend/src/services/json_formatter.py`)

`JSONFormatter.format_rows` yields `"["` (or `"[\n"` in pretty mode),
then one chunk per row: `json.dumps(filtered_row, ensure_ascii=False,
indent=self.indent)` (indent is `2` when pretty, else `None`), the
pretty text re-indented two spaces per line, a `","` appended unless the
row is the last of the whole row sequence (`row_index < total_rows - 1`,
an absolute position), a `"\n"` appended in pretty mode, and finally
`"]"` (or `"]\n"`).

`json.dumps` is modelled for the flat row objects the formatter feeds
it: with `ensure_ascii=False` strings keep non-ASCII characters and
escape only `"` and `\`, the shortcuts `\b \t \n \f \r`, and the other
control characters below `0x20` as `\u00XX`; the default separators are
`", "`/`": "` without indent and `","` (followed by the indent
newline)/`": "` with indent.
-/

/-- Lower-case hex digit of `n % 16`. -/
def hexDigitChar (n : Nat) : Char :=
  if n % 16 < 10 then Char.ofNat ('0'.toNat + n % 16)
  else Char.ofNat ('a'.toNat + (n % 16 - 10))

/-- `json.dumps` escape of one character inside a string literal
(`ensure_ascii=False`). -/
def jsonEscapeChar (c : Char) : List Char :=
  if c = '"' then ['\\', '"']
  else if c = '\\' then ['\\', '\\']
  else if c = Char.ofNat 8 then ['\\', 'b']
  else if c = '\t' then ['\\', 't']
  else if c = '\n' then ['\\', 'n']
  else if c = Char.ofNat 12 then ['\\', 'f']
  else if c = '\r' then ['\\', 'r']
  else if c.toNat < 0x20 then
    ['\\', 'u', '0', '0', hexDigitChar (c.toNat / 16), hexDigitChar c.toNat]
  else [c]

/-- Characters of a JSON string literal: quote, escaped characters,
quote. -/
def jsonStrChars (s : String) : List Char :=
  '"' :: s.data.flatMap jsonEscapeChar ++ ['"']

/-- A JSON string literal. -/
def jsonStrLit (s : String) : String :=
  String.mk (jsonStrChars s)

/-- Fuel-structured decimal digit list of a natural number (most
significant first); fuel is always at least the digit count. -/
def decDigitsGo : Nat → Nat → List Char
  | 0, n => [Char.ofNat ('0'.toNat + n % 10)]
  | fuel + 1, n =>
    if n < 10 then [Char.ofNat ('0'.toNat + n)]
    else decDigitsGo fuel (n / 10) ++ [Char.ofNat ('0'.toNat + n % 10)]

/-- Decimal digit characters of `n`, most significant first. -/
def decDigits (n : Nat) : List Char := decDigitsGo n n

/-- Characters of Python's decimal rendering of an `int`. -/
def pyIntChars (n : Int) : List Char :=
  (if n < 0 then ['-'] else []) ++ decDigits n.natAbs

/-- Python's decimal rendering of an `int` (sign, then digits). -/
def pyIntRepr (n : Int) : String :=
  String.mk (pyIntChars n)

/-- Characters of `json.dumps` of one scalar value. -/
def scalarChars : PyValue → List Char
  | .null => 'n' :: 'u' :: 'l' :: 'l' :: []
  | .bool true => 't' :: 'r' :: 'u' :: 'e' :: []
  | .bool false => 'f' :: 'a' :: 'l' :: 's' :: 'e' :: []
  | .int n => pyIntChars n
  | .str s => jsonStrChars s

/-- `json.dumps` of one scalar value. -/
def jsonScalarStr (v : PyValue) : String :=
  String.mk (scalarChars v)

/-- Characters of one `"key": value` member (`": "` is the key separator
with or without indentation). -/
def memberChars (kv : String × PyValue) : List Char :=
  jsonStrChars kv.1 ++ ':' :: ' ' :: scalarChars kv.2

/-- One `"key": value` member. -/
def jsonMemberStr (kv : String × PyValue) : String :=
  String.mk (memberChars kv)

/-- Join pieces with a separator (Python `sep.join`). -/
def joinSep (sep : String) : List String → String
  | [] => ""
  | [x] => x
  | x :: xs => x ++ sep ++ joinSep sep xs

/-- The members of a flat object, each rendered by `memberChars`,
interleaved with `','` followed by `wsep` and closed by `wend`: the
common shape of `json.dumps` object bodies (`wsep`/`wend` the
whitespace the chosen separators and indentation put there). -/
def membersRegion (wsep wend : List Char) : List (String × PyValue) → List Char
  | [] => wend
  | [kv] => memberChars kv ++ wend
  | kv :: rest => memberChars kv ++ ',' :: wsep ++ membersRegion wsep wend rest

/-- `json.dumps(obj, ensure_ascii=False, indent=None)` for a flat object:
`{`, the members joined by `", "` (the default item and key separators
print a space after the comma and colon), `}`. -/
def pyJsonDumpsCompact (ms : List (String × PyValue)) : String :=
  String.mk ('{' :: membersRegion [' '] [] ms ++ ['}'])

/-- `json.dumps(obj, ensure_ascii=False, indent=2)` for a flat object:
`{}` when empty, else every member on its own line indented two spaces,
members separated by `,`, the closing brace on its own line. -/
def pyJsonDumpsIndent (ms : List (String × PyValue)) : String :=
  match ms with
  | [] => "{}"
  | _ =>
    String.mk ('{' :: '\n' :: ' ' :: ' ' ::
      membersRegion ['\n', ' ', ' '] ['\n'] ms ++ ['}'])

/-- Python `s.split('\n')` on a character list. -/
def splitLines : List Char → List (List Char)
  | [] => [[]]
  | c :: rest =>
    if c = '\n' then [] :: splitLines rest
    else match splitLines rest with
      | [] => [[c]]
      | h :: t => (c :: h) :: t

/-- The pretty-mode re-indentation
`'\n'.join(f"  {line}" for line in json_str.split('\n'))`. -/
def pyIndentLines (s : String) : String :=
  joinSep "\n" ((splitLines s.data).map fun l => "  " ++ String.mk l)

/-- `{col: row.get(col) for col in columns if col in row}`: Python dict
insert (overwrite keeps the original position, new keys append). -/
def dictInsert (d : List (String × PyValue)) (k : String) (v : PyValue) :
    List (String × PyValue) :=
  if d.any (fun kv => kv.1 = k) then
    d.map fun kv => if kv.1 = k then (k, v) else kv
  else d ++ [(k, v)]

/-- The filtered row object the JSON formatter serializes: keys of
`columns` that exist in the row, values via `row.get(col)`. -/
def filteredRow (columns : List String) (row : Row) : List (String × PyValue) :=
  columns.foldl
    (fun d c => match rowGet row c with
                | some v => dictInsert d c v
                | none => d) []

/-- One yielded row chunk of `JSONFormatter.format_rows`: the serialized
(and, in pretty mode, re-indented) object, the absolute-position comma,
and the pretty-mode newline. -/
def jsonRowChunk (pretty : Bool) (columns : List String) (total idx : Nat)
    (row : Row) : String :=
  let js := if pretty then pyIndentLines (pyJsonDumpsIndent (filteredRow columns row))
            else pyJsonDumpsCompact (filteredRow columns row)
  let js := if idx < total - 1 then js ++ "," else js
  if pretty then js ++ "\n" else js

/-- `JSONFormatter.format_rows(columns, rows, chunk_size)`: the opening
bracket, one chunk per row of the chunked iteration with its running
`row_index`, and the closing bracket. -/
def jsonFormatRows (pretty : Bool) (columns : List String) (rows : List Row)
    (chunkSize : Nat) : List String :=
  [if pretty then "[\n" else "["] ++
  (((chunkList chunkSize rows).flatten).enum.map
    fun ri => jsonRowChunk pretty columns rows.length ri.1 ri.2) ++
  [if pretty then "]\n" else "]"]

/-!
### Export orchestration (`export_service.py`, `stream_exporter.py`)

`ExportService.export_csv` routes to `StreamExporter.stream_csv` when
`is_large_dataset(data.total_rows)` and otherwise to a freshly built
`CSVFormatter(include_bom=True)`; in both paths the formatter is
constructed with its defaults (`CSVFormatter()` also defaults
`include_bom` to `True`) and `options.include_bom` is never read.
`stream_csv`/`stream_json` forward the formatter chunks unchanged (their
loop bodies only do progress logging).  Row counts are Python ints; the
streaming threshold predicates are embedded over `Int`, while
`total_rows` — a declared row count — is kept as `Nat` so that the size
estimate's arithmetic is the non-negative case of Python's.

`StreamExporter.estimate_size_bytes` computes
`int(sample_bytes / sample_size * total_rows)` in floating point; it is
embedded as exact rational arithmetic, where for non-negative operands
`int(a / b * c) = a * c / b` in truncating natural division.
-/

/-- `ExportOptions` (pydantic): all three flags default to `False`. -/
structure ExportOptions where
  pretty : Bool := false
  include_bom : Bool := false
  include_metadata : Bool := false
deriving Repr, DecidableEq

/-- `QueryResultData`: columns, rows, and the separately declared
`total_rows` count (authoritative for streaming/size decisions). -/
structure QueryResultData where
  columns : List String
  rows : List Row
  total_rows : Nat

/-- `STREAMING_THRESHOLD = 10000` in `export_service.py`. -/
def STREAMING_THRESHOLD : Int := 10000

/-- `LARGE_DATASET_THRESHOLD = 10000` in `stream_exporter.py`. -/
def LARGE_DATASET_THRESHOLD : Int := 10000

/-- `STREAM_CHUNK_SIZE = 1000` in `stream_exporter.py`. -/
def STREAM_CHUNK_SIZE : Nat := 1000

/-- `ExportService.should_stream(row_count)`. -/
def shouldStream (rowCount : Int) : Bool :=
  rowCount > STREAMING_THRESHOLD

/-- `StreamExporter.is_large_dataset(row_count)`. -/
def isLargeDataset (rowCount : Int) : Bool :=
  rowCount > LARGE_DATASET_THRESHOLD

/-- `StreamExporter.stream_csv`: the chunks of
`self.csv_formatter.format_rows(data.columns, data.rows, chunk_size=self.chunk_size)`
with `self.csv_formatter = CSVFormatter()` (so `include_bom=True`) and
`self.chunk_size = STREAM_CHUNK_SIZE`; `options` is accepted but unused. -/
def streamCsv (data : QueryResultData) (options : Option ExportOptions) :
    List String :=
  csvFormatRows true data.columns data.rows STREAM_CHUNK_SIZE

/-- `ExportService.export_csv(data, options)`: the yielded chunks. The
small-dataset branch builds `CSVFormatter(include_bom=True)` and uses the
default `chunk_size=1000` of `format_rows`. -/
def exportCsv (data : QueryResultData) (options : Option ExportOptions) :
    List String :=
  if isLargeDataset data.total_rows then streamCsv data options
  else csvFormatRows true data.columns data.rows 1000

/-- UTF-8 byte length of a chunk, `len(chunk.encode('utf-8'))`. -/
def utf8Len (s : String) : Nat := s.utf8ByteSize

/-- `StreamExporter.estimate_size_bytes(data, format)`: sample the first
`min(10, len(rows))` rows, render them through the matching formatter
(each freshly constructed with defaults), sum the chunks' UTF-8 byte
lengths, and extrapolate by `total_rows` over the sample row count
(exact-arithmetic model of the source's float division). -/
def estimateSizeBytes (data : QueryResultData) (format : String) : Nat :=
  if data.rows.length = 0 then 0
  else
    let sampleSize := min 10 data.rows.length
    let sampleRows := data.rows.take sampleSize
    if format = "csv" then
      let sampleBytes :=
        ((csvFormatRows true data.columns sampleRows 1000).map utf8Len).sum
      sampleBytes * data.total_rows / sampleSize
    else
      let sampleBytes :=
        ((jsonFormatRows false data.columns sampleRows 1000).map utf8Len).sum
      sampleBytes * data.total_rows / sampleSize

/-- Modelled from the spec (`estimate_size_bytes` contract, §4.4 and §8):
0 when there are zero rows or `total_rows` is 0, otherwise the UTF-8 byte
length of the matching formatter's rendering of the first
`min(10, len(rows))` rows, divided by that sample row count, multiplied
by `total_rows`, truncated to an integer. -/
def estimateSizeBytesSpec (data : QueryResultData) (format : String) : Nat :=
  if data.rows.length = 0 ∨ data.total_rows = 0 then 0
  else
    let sampleSize := min 10 data.rows.length
    let rendered :=
      if format = "csv" then
        concatAll (csvFormatRows true data.columns (data.rows.take sampleSize) 1000)
      else
        concatAll (jsonFormatRows false data.columns (data.rows.take sampleSize) 1000)
    utf8Len rendered * data.total_rows / sampleSize

/-!
### A JSON parser for the emitted documents

To state "the concatenation of the yielded chunks parses as valid JSON"
the development carries an executable recursive-descent parser for the
grammar the formatter emits — a JSON array of flat objects whose values
are scalars, with arbitrary whitespace between tokens.  Acceptance by
this parser is acceptance by the JSON grammar (the parser checks
end-of-input and recognizes only JSON syntax).
-/

/-- JSON inter-token whitespace. -/
def isWsChar (c : Char) : Bool :=
  c = ' ' || c = '\t' || c = '\n' || c = '\r'

/-- Drop leading whitespace. -/
def dropWs : List Char → List Char
  | [] => []
  | c :: rest => if isWsChar c then dropWs rest else c :: rest

/-- ASCII decimal digit?  (code points 48–57) -/
def isDigitCh (c : Char) : Bool :=
  decide (48 ≤ c.toNat) && decide (c.toNat < 58)

/-- Value of a hex digit character, computed from its code point. -/
def hexValOf (c : Char) : Option Nat :=
  let n := c.toNat
  if 48 ≤ n ∧ n < 58 then some (n - 48)
  else if 65 ≤ n ∧ n < 71 then some (n - 55)
  else if 97 ≤ n ∧ n < 103 then some (n - 87)
  else none

/-- Single-character escapes (the characters that may follow a backslash,
other than the `u` of a unicode escape). -/
def jsonUnescapeCh (e : Char) : Option Char :=
  if e = '"' ∨ e = '\\' ∨ e = '/' then some e
  else if e = 'b' then some (Char.ofNat 8)
  else if e = 'f' then some (Char.ofNat 12)
  else if e = 'n' then some '\n'
  else if e = 'r' then some '\r'
  else if e = 't' then some '\t'
  else none

/-- String-literal body after the opening quote: the decoded characters
and the input after the closing quote. -/
def parseStrBody : List Char → Option (List Char × List Char)
  | [] => none
  | c :: rest =>
    if c = '"' then some ([], rest)
    else if c = '\\' then
      match rest with
      | [] => none
      | e :: rest1 =>
        if e = 'u' then
          match rest1 with
          | a :: b :: hc :: d :: rest' =>
            (match hexValOf a, hexValOf b, hexValOf hc, hexValOf d with
             | some va, some vb, some vc, some vd =>
               (parseStrBody rest').map fun sr =>
                 (Char.ofNat (((va * 16 + vb) * 16 + vc) * 16 + vd) :: sr.1, sr.2)
             | _, _, _, _ => none)
          | _ => none
        else
          (match jsonUnescapeCh e with
           | some ch => (parseStrBody rest1).map fun sr => (ch :: sr.1, sr.2)
           | none => none)
    else (parseStrBody rest).map fun sr => (c :: sr.1, sr.2)

/-- Leading run of decimal digits and the remaining input. -/
def takeDigitsPref : List Char → List Char × List Char
  | [] => ([], [])
  | c :: rest =>
    if isDigitCh c then
      ((takeDigitsPref rest).1.cons c, (takeDigitsPref rest).2)
    else ([], c :: rest)

/-- Numeric value of a digit run. -/
def digitsVal (ds : List Char) : Nat :=
  ds.foldl (fun a c => a * 10 + (c.toNat - '0'.toNat)) 0

/-- A JSON integer token (optional minus sign, one or more digits). -/
def parseIntTok (cs : List Char) : Option (Int × List Char) :=
  match cs with
  | [] => none
  | c :: r =>
    if c = '-' then
      (match takeDigitsPref r with
       | ([], _) => none
       | (ds, r') => some (-(digitsVal ds : Int), r'))
    else
      (match takeDigitsPref (c :: r) with
       | ([], _) => none
       | (ds, r') => some ((digitsVal ds : Int), r'))

/-- Match a literal character sequence. -/
def stripLit : List Char → List Char → Option (List Char)
  | [], cs => some cs
  | _ :: _, [] => none
  | l :: ls, c :: cs => if c = l then stripLit ls cs else none

/-- One scalar JSON value (`null`, `true`, `false`, string, integer). -/
def parseScalarTok : List Char → Option (PyValue × List Char)
  | [] => none
  | c :: rest =>
    if c = '"' then
      (parseStrBody rest).map fun sr => (.str (String.mk sr.1), sr.2)
    else if c = 'n' then
      (stripLit ('u' :: 'l' :: 'l' :: []) rest).map fun r => (.null, r)
    else if c = 't' then
      (stripLit ('r' :: 'u' :: 'e' :: []) rest).map fun r => (.bool true, r)
    else if c = 'f' then
      (stripLit ('a' :: 'l' :: 's' :: 'e' :: []) rest).map fun r => (.bool false, r)
    else
      (parseIntTok (c :: rest)).map fun ir => (.int ir.1, ir.2)

/-- One-or-more object members (`"key": value`), comma-separated, up to
and including the closing `}`; `fuel` bounds the member count. -/
def parseMembers : Nat → List Char → Option (List (String × PyValue) × List Char)
  | 0, _ => none
  | fuel + 1, cs =>
    match dropWs cs with
    | '"' :: r =>
      (match parseStrBody r with
       | none => none
       | some (k, r1) =>
         match dropWs r1 with
         | ':' :: r2 =>
           (match parseScalarTok (dropWs r2) with
            | none => none
            | some (v, r3) =>
              match dropWs r3 with
              | ',' :: r4 =>
                (match parseMembers fuel r4 with
                 | some (ms, r5) => some ((String.mk k, v) :: ms, r5)
                 | none => none)
              | '}' :: r4 => some ([(String.mk k, v)], r4)
              | _ => none)
         | _ => none)
    | _ => none

/-- One flat object, `{}` or `{ members }`; `mfuel` bounds the member
count. -/
def parseObjTok (mfuel : Nat) (cs : List Char) :
    Option (List (String × PyValue) × List Char) :=
  match dropWs cs with
  | '{' :: r =>
    (match dropWs r with
     | '}' :: r' => some ([], r')
     | _ => parseMembers mfuel r)
  | _ => none

/-- One-or-more comma-separated objects up to and including the closing
`]`; `fuel` bounds the object count, `mfuel` each member count. -/
def parseItems (mfuel : Nat) : Nat → List Char → Option (List (List (String × PyValue)) × List Char)
  | 0, _ => none
  | fuel + 1, cs =>
    match parseObjTok mfuel cs with
    | none => none
    | some (obj, r) =>
      match dropWs r with
      | ',' :: r' =>
        (match parseItems mfuel fuel r' with
         | some (objs, r'') => some (obj :: objs, r'')
         | none => none)
      | ']' :: r' => some ([obj], r')
      | _ => none

/-- Parse a complete document: a JSON array of flat scalar objects with
nothing but whitespace after it.  Returns the member lists of the
objects, in order. -/
def parseRowArrayDoc (s : String) : Option (List (List (String × PyValue))) :=
  match dropWs s.data with
  | '[' :: r =>
    (match dropWs r with
     | ']' :: r' => if dropWs r' = [] then some [] else none
     | _ =>
       match parseItems s.data.length s.data.length r with
       | some (objs, r') => if dropWs r' = [] then some objs else none
       | none => none)
  | _ => none

/-!
## General lemmas
-/

theorem data_concatAll (l : List String) :
    (concatAll l).data = (l.map String.data).flatten := by
  induction l with
  | nil => rfl
  | cons x xs ih => simp [concatAll, String.data_append, ih]

theorem utf8SizeGo_append (a b : List Char) :
    String.utf8ByteSize.go (a ++ b) =
      String.utf8ByteSize.go a + String.utf8ByteSize.go b := by
  induction a with
  | nil => simp [String.utf8ByteSize.go]
  | cons c cs ih => simp [String.utf8ByteSize.go, ih]; omega

theorem utf8Len_append (s t : String) :
    utf8Len (s ++ t) = utf8Len s + utf8Len t := by
  cases s with
  | mk a =>
    cases t with
    | mk b =>
      show String.utf8ByteSize ⟨a ++ b⟩ = _
      simp [utf8Len, String.utf8ByteSize, utf8SizeGo_append]

theorem utf8Len_concatAll (l : List String) :
    utf8Len (concatAll l) = (l.map utf8Len).sum := by
  induction l with
  | nil => rfl
  | cons x xs ih => simp [concatAll, utf8Len_append, ih]

theorem concatAll_ne_empty_head (s : String) (l : List String) (hs : s ≠ "") :
    concatAll (s :: l) ≠ "" := by
  intro h
  apply hs
  have hd := congrArg String.data h
  simp only [concatAll, String.data_append] at hd
  cases s with
  | mk a =>
    cases a with
    | nil => rfl
    | cons c cs => simp at hd

/-!
## The SQL safety gate claims
-/

/-- C1 counterexample: for the non-SELECT statement `DELETE FROM users`
the gate does raise, but the exception message is not the string
`"Only SELECT statements are allowed."` — it continues with a second
sentence. -/
theorem validate_non_select_message_cx :
    validateAndTransformQuery (.delete "DELETE FROM users") = .error onlySelectMsg ∧
    onlySelectMsg ≠ "Only SELECT statements are allowed." := by
  constructor
  · rfl
  · decide

/-- C1 (amended): for every parsed statement whose top-level node is not
a SELECT, `validate_and_transform_query` raises `SQLValidationError`
whose message begins with "Only SELECT statements are allowed." and
never returns a transformed SQL string. -/
theorem validate_rejects_non_select (stmt : SqlStmt)
    (h : isSelectStmt stmt = false) :
    validateAndTransformQuery stmt = .error onlySelectMsg ∧
    "Only SELECT statements are allowed.".data <+: onlySelectMsg.data := by
  refine ⟨?_, by decide⟩
  cases stmt with
  | select s => simp [isSelectStmt] at h
  | insert sql => rfl
  | update sql => rfl
  | delete sql => rfl
  | drop sql => rfl
  | union sql => rfl
  | command sql => rfl

/-- Witness for `validate_rejects_non_select` at `INSERT INTO t VALUES (1)`. -/
theorem validate_rejects_non_select_witness :
    isSelectStmt (.insert "INSERT INTO t VALUES (1)") = false ∧
    (validateAndTransformQuery (.insert "INSERT INTO t VALUES (1)") =
        .error onlySelectMsg ∧
      "Only SELECT statements are allowed.".data <+: onlySelectMsg.data) :=
  ⟨rfl, validate_rejects_non_select _ rfl⟩

/-- C2: a SELECT without a top-level LIMIT is returned with
`LIMIT 1000` injected (the rendered SQL contains the substring
`"LIMIT 1000"`) and message `"LIMIT 1000 automatically applied"`; a
SELECT that already carries a LIMIT is rendered unchanged — the same
AST, its LIMIT value untouched in the rendered text — with message `""`. -/
theorem validate_select_limit (s : SelectStmt) :
    (s.limit = none →
      validateAndTransformQuery (.select s) =
        .ok (renderSelect { s with limit := some 1000 },
             "LIMIT 1000 automatically applied") ∧
      "LIMIT 1000".data <:+: (renderSelect { s with limit := some 1000 }).data) ∧
    (∀ n, s.limit = some n →
      validateAndTransformQuery (.select s) = .ok (renderSelect s, "") ∧
      (renderSelect s).data =
        s.pre.data ++ (" LIMIT " ++ toString n).data ++ s.post.data) := by
  constructor
  · intro hnone
    constructor
    · simp [validateAndTransformQuery, validateAndTransformAst, hnone]
    · refine ⟨s.pre.data ++ ' ' :: [], s.post.data, ?_⟩
      simp only [renderSelect, String.data_append]
      simp [String.data_append]
      rfl
  · intro n hsome
    constructor
    · simp [validateAndTransformQuery, validateAndTransformAst, hsome]
    · simp [renderSelect, hsome, String.data_append]

/-- Witness for `validate_select_limit`: both branches at concrete
SELECTs. -/
theorem validate_select_limit_witness :
    ((SelectStmt.mk "SELECT * FROM users" none "").limit = none ∧
      (validateAndTransformQuery (.select ⟨"SELECT * FROM users", none, ""⟩) =
        .ok (renderSelect ⟨"SELECT * FROM users", some 1000, ""⟩,
             "LIMIT 1000 automatically applied") ∧
       "LIMIT 1000".data <:+:
         (renderSelect ⟨"SELECT * FROM users", some 1000, ""⟩).data)) ∧
    ((SelectStmt.mk "SELECT * FROM users" (some 10) "").limit = some 10 ∧
      (validateAndTransformQuery (.select ⟨"SELECT * FROM users", some 10, ""⟩) =
        .ok (renderSelect ⟨"SELECT * FROM users", some 10, ""⟩, "") ∧
       (renderSelect ⟨"SELECT * FROM users", some 10, ""⟩).data =
         "SELECT * FROM users".data ++ (" LIMIT " ++ toString 10).data ++
           "".data)) :=
  ⟨⟨rfl, (validate_select_limit ⟨"SELECT * FROM users", none, ""⟩).1 rfl⟩,
   ⟨rfl, (validate_select_limit ⟨"SELECT * FROM users", some 10, ""⟩).2 10 rfl⟩⟩

/-- C5: `validate_and_transform_query` is idempotent.  When a statement
succeeds with transformed AST `ast`, SQL `sql` and any message, running
the validator again on the transformed statement (what the output SQL
re-parses to, sqlglot's generator output being a parse/serialize fixed
point) returns the very same SQL with the empty message. -/
theorem validate_and_transform_idempotent (stmt ast : SqlStmt) (sql msg : String)
    (h : validateAndTransformAst stmt = .ok (ast, sql, msg)) :
    validateAndTransformAst ast = .ok (ast, sql, "") ∧
    validateAndTransformQuery ast = .ok (sql, "") := by
  cases stmt with
  | select s =>
    cases hl : s.limit with
    | some n =>
      simp only [validateAndTransformAst, hl, Except.ok.injEq, Prod.mk.injEq] at h
      obtain ⟨rfl, rfl, rfl⟩ := h
      constructor
      · simp [validateAndTransformAst, hl]
      · simp [validateAndTransformQuery, validateAndTransformAst, hl]
    | none =>
      simp only [validateAndTransformAst, hl, Except.ok.injEq, Prod.mk.injEq] at h
      obtain ⟨rfl, rfl, rfl⟩ := h
      constructor
      · simp [validateAndTransformAst]
      · simp [validateAndTransformQuery, validateAndTransformAst]
  | insert sql' => simp [validateAndTransformAst] at h
  | update sql' => simp [validateAndTransformAst] at h
  | delete sql' => simp [validateAndTransformAst] at h
  | drop sql' => simp [validateAndTransformAst] at h
  | union sql' => simp [validateAndTransformAst] at h
  | command sql' => simp [validateAndTransformAst] at h

/-- Witness for `validate_and_transform_idempotent` at
`SELECT 1` (no LIMIT): the first run injects `LIMIT 1000`, the second
run is a no-op with message `""`. -/
theorem validate_and_transform_idempotent_witness :
    validateAndTransformAst (.select ⟨"SELECT 1", none, ""⟩) =
      .ok (.select ⟨"SELECT 1", some 1000, ""⟩,
           renderSelect ⟨"SELECT 1", some 1000, ""⟩,
           "LIMIT 1000 automatically applied") ∧
    (validateAndTransformAst (.select ⟨"SELECT 1", some 1000, ""⟩) =
      .ok (.select ⟨"SELECT 1", some 1000, ""⟩,
           renderSelect ⟨"SELECT 1", some 1000, ""⟩, "") ∧
     validateAndTransformQuery (.select ⟨"SELECT 1", some 1000, ""⟩) =
      .ok (renderSelect ⟨"SELECT 1", some 1000, ""⟩, "")) :=
  ⟨rfl, validate_and_transform_idempotent (.select ⟨"SELECT 1", none, ""⟩)
    (.select ⟨"SELECT 1", some 1000, ""⟩)
    (renderSelect ⟨"SELECT 1", some 1000, ""⟩)
    "LIMIT 1000 automatically applied" rfl⟩

/-- C10: a top-level set operation such as
`SELECT a FROM t UNION SELECT b FROM u` parses to an `exp.Union` node,
not a plain `exp.Select`, so the gate rejects it although it is
read-only; in general a statement is accepted iff its top-level node is
a plain SELECT. -/
theorem union_rejected_only_plain_select :
    (∀ sql, validateAndTransformQuery (.union sql) = .error onlySelectMsg) ∧
    (∀ stmt, (∃ r, validateAndTransformQuery stmt = .ok r) ↔
      isSelectStmt stmt = true) := by
  constructor
  · intro sql
    rfl
  · intro stmt
    constructor
    · intro ⟨r, hr⟩
      cases stmt with
      | select s => rfl
      | insert sql => simp [validateAndTransformQuery, validateAndTransformAst] at hr
      | update sql => simp [validateAndTransformQuery, validateAndTransformAst] at hr
      | delete sql => simp [validateAndTransformQuery, validateAndTransformAst] at hr
      | drop sql => simp [validateAndTransformQuery, validateAndTransformAst] at hr
      | union sql => simp [validateAndTransformQuery, validateAndTransformAst] at hr
      | command sql => simp [validateAndTransformQuery, validateAndTransformAst] at hr
    · intro h
      cases stmt with
      | select s =>
        cases hl : s.limit with
        | some n =>
          exact ⟨(renderSelect s, ""), by
            simp [validateAndTransformQuery, validateAndTransformAst, hl]⟩
        | none =>
          exact ⟨(renderSelect { s with limit := some 1000 },
                  "LIMIT 1000 automatically applied"), by
            simp [validateAndTransformQuery, validateAndTransformAst, hl]⟩
      | insert sql => simp [isSelectStmt] at h
      | update sql => simp [isSelectStmt] at h
      | delete sql => simp [isSelectStmt] at h
      | drop sql => simp [isSelectStmt] at h
      | union sql => simp [isSelectStmt] at h
      | command sql => simp [isSelectStmt] at h

/-!
## Streaming-threshold claim
-/

/-- C9: `should_stream(n)` is true iff `n` strictly exceeds the fixed
10,000-row threshold, agrees with `is_large_dataset`, and in particular
is false at 10,000 and true at 10,001. -/
theorem should_stream_iff (n : Int) :
    (shouldStream n = true ↔ 10000 < n) ∧
    shouldStream n = isLargeDataset n ∧
    shouldStream 10000 = false ∧
    shouldStream 10001 = true := by
  refine ⟨?_, rfl, by decide, by decide⟩
  simp [shouldStream, STREAMING_THRESHOLD]

/-!
## CSV formatter claims
-/

theorem append_ne_empty_left (a b : String) (h : a ≠ "") : a ++ b ≠ "" := by
  intro hab
  apply h
  have hd := congrArg String.data hab
  simp only [String.data_append] at hd
  have : a.data = [] := by
    cases hda : a.data with
    | nil => rfl
    | cons c cs => rw [hda] at hd; simp at hd
  cases a with
  | mk l => simp_all

theorem append_crlf_ne_empty (s : String) : s ++ "\r\n" ≠ "" := by
  intro h
  have hd := congrArg String.data h
  simp only [String.data_append] at hd
  simp at hd

theorem csvRecord_ne_empty (fields : List String) : csvRecord fields ≠ "" := by
  unfold csvRecord
  split
  · decide
  · exact append_crlf_ne_empty _

theorem csvRowRecord_ne_empty (cols : List String) (row : Row) :
    csvRowRecord cols row ≠ "" :=
  csvRecord_ne_empty _

theorem concatAll_chunk_map (f : Row → String) (chunks : List (List Row)) :
    concatAll (chunks.map fun ch => concatAll (ch.map f)) =
      concatAll (chunks.flatten.map f) := by
  induction chunks with
  | nil => rfl
  | cons ch rest ih =>
    simp only [List.map_cons, concatAll, List.flatten_cons, List.map_append,
      concatAll_append, ih]

/-- The concatenation of all `format_rows` chunks, in closed form: the
BOM when enabled, then — when there are rows at all — the header record
followed by every data record. -/
theorem csvFormatRows_concat (bom : Bool) (cols : List String) (rows : List Row)
    (c : Nat) (hc : 1 ≤ c) :
    concatAll (csvFormatRows bom cols rows c) =
      (if bom then "\uFEFF" else "") ++
      (if rows = [] then ""
       else csvRecord cols ++ concatAll (rows.map (csvRowRecord cols))) := by
  unfold csvFormatRows
  rw [concatAll_append]
  have hbom : concatAll (if bom then ["\uFEFF"] else []) =
      (if bom then "\uFEFF" else "") := by
    cases bom <;> simp [concatAll]
  rw [hbom]
  cases hch : chunkList c rows with
  | nil =>
    have hrows : rows = [] := by
      have := chunkList_flatten c hc rows
      rw [hch] at this
      simpa using this.symm
    simp [hrows, csvBodyChunks, concatAll]
  | cons first rest =>
    simp only [csvBodyChunks]
    have hrows : rows ≠ [] := by
      intro h
      rw [h] at hch
      simp [chunkList, chunkListGo] at hch
    have hmem : ∀ ch ∈ first :: rest, ch ≠ [] := by
      rw [← hch]
      exact chunkList_ne_nil c hc rows
    have hfilter :
        (csvChunkStr cols true first :: rest.map (csvChunkStr cols false)).filter
            (fun s => s ≠ "") =
          csvChunkStr cols true first :: rest.map (csvChunkStr cols false) := by
      rw [List.filter_eq_self]
      intro a ha
      simp only [List.mem_cons, List.mem_map] at ha
      rcases ha with rfl | ⟨ch, hchm, rfl⟩
      · simp only [ne_eq, decide_eq_true_eq]
        exact append_ne_empty_left _ _ (csvRecord_ne_empty cols)
      · simp only [ne_eq, decide_eq_true_eq, csvChunkStr, if_neg Bool.false_ne_true]
        have hchne : ch ≠ [] := hmem ch (List.mem_cons_of_mem _ hchm)
        cases ch with
        | nil => exact absurd rfl hchne
        | cons r rs =>
          simp only [List.map_cons]
          have : ("" : String) ++
              concatAll (csvRowRecord cols r :: rs.map (csvRowRecord cols)) =
              concatAll (csvRowRecord cols r :: rs.map (csvRowRecord cols)) := by
            simp
          rw [this]
          exact concatAll_ne_empty_head _ _ (csvRowRecord_ne_empty cols r)
    rw [hfilter, if_neg hrows]
    have hexpand : csvChunkStr cols true first :: rest.map (csvChunkStr cols false) =
        (csvRecord cols ++ concatAll (first.map (csvRowRecord cols))) ::
          rest.map fun ch => concatAll (ch.map (csvRowRecord cols)) := by
      simp [csvChunkStr]
    rw [hexpand]
    have hflat : first ++ rest.flatten = rows := by
      have := chunkList_flatten c hc rows
      rw [hch] at this
      simpa using this
    simp only [concatAll]
    rw [concatAll_chunk_map, String.append_assoc, ← concatAll_append,
      ← List.map_append, hflat]

/-- C3: for any columns, rows and two positive chunk sizes, the
concatenation of all chunks `CSVFormatter.format_rows` yields is the
same string — the chunk size never affects the assembled CSV, BOM and
header placement included. -/
theorem csv_chunk_size_irrelevant (bom : Bool) (cols : List String)
    (rows : List Row) (c₁ c₂ : Nat) (h₁ : 1 ≤ c₁) (h₂ : 1 ≤ c₂) :
    concatAll (csvFormatRows bom cols rows c₁) =
      concatAll (csvFormatRows bom cols rows c₂) := by
  rw [csvFormatRows_concat bom cols rows c₁ h₁,
    csvFormatRows_concat bom cols rows c₂ h₂]

/-- Witness for `csv_chunk_size_irrelevant` at chunk sizes 1 and 1000 on
a two-row table. -/
theorem csv_chunk_size_irrelevant_witness :
    1 ≤ 1 ∧ 1 ≤ 1000 ∧
    concatAll (csvFormatRows true ["id", "name"]
      [[("id", .int 1), ("name", .str "Alice")],
       [("id", .int 2), ("name", .str "Bob")]] 1) =
    concatAll (csvFormatRows true ["id", "name"]
      [[("id", .int 1), ("name", .str "Alice")],
       [("id", .int 2), ("name", .str "Bob")]] 1000) :=
  ⟨Nat.le_refl 1, by omega,
   csv_chunk_size_irrelevant true ["id", "name"] _ 1 1000 (by omega) (by omega)⟩

/-- C7 counterexample: on an empty row list `format_complete` yields the
BOM only — the slicing loop `range(0, 0, 1)` never runs, so no
header-only chunk is produced and the header record `"id\r\n"` does not
occur in the result. -/
theorem format_complete_empty_no_header_cx :
    csvFormatComplete true ["id"] [] = "\uFEFF" ∧
    csvRecord ["id"] = "id\r\n" ∧
    ¬ ((csvRecord ["id"]).data <:+: (csvFormatComplete true ["id"] []).data) := by
  refine ⟨rfl, ?_, ?_⟩ <;> decide

/-- C7 (amended): `format_complete(columns, [])` equals the concatenation
of `format_rows` with chunk size 1 — but that concatenation contains no
header record: it is exactly the BOM when enabled and the empty string
otherwise. -/
theorem format_complete_empty_rows (bom : Bool) (cols : List String) :
    csvFormatComplete bom cols [] = concatAll (csvFormatRows bom cols [] 1) ∧
    csvFormatComplete bom cols [] = (if bom then "\uFEFF" else "") := by
  constructor
  · rfl
  · have := csvFormatRows_concat bom cols [] 1 (Nat.le_refl 1)
    simp only [if_pos rfl] at this
    rw [csvFormatComplete]
    simpa using this

/-!
## Export orchestration claims
-/

/-- C6 evidence: `export_csv` emits the UTF-8 BOM even when the export
options explicitly disable it.  With `include_bom=False` in the options
and a one-row table, the first yielded chunk is still the BOM — the
options flag is never consulted (the small-dataset branch hard-codes
`CSVFormatter(include_bom=True)` and the streaming path's formatter is
built with the same default). -/
theorem export_csv_bom_despite_disabled :
    (ExportOptions.mk false false false).include_bom = false ∧
    exportCsv ⟨["id"], [[("id", .int 1)]], 1⟩
        (some (ExportOptions.mk false false false)) =
      ["\uFEFF", "id\r\n1\r\n"] ∧
    (streamCsv ⟨["id"], [[("id", .int 1)]], 20000⟩
        (some (ExportOptions.mk false false false))).head? =
      some "\uFEFF" := by
  refine ⟨rfl, ?_, ?_⟩ <;> decide

/-- C8: `estimate_size_bytes` agrees with its specification: 0 when the
row list is empty (and whenever `total_rows` is 0, since the
extrapolation multiplies by `total_rows`), otherwise the UTF-8 byte
length of the matching formatter's rendering of the first
`min(10, len(rows))` rows, divided by that sample row count, multiplied
by `total_rows` — not `len(rows)` — and truncated to an integer (the
source's float arithmetic modelled as exact rational arithmetic, where
`int(a / b * c) = a * c / b` in truncating division for non-negative
operands). -/
theorem estimate_size_bytes_eq_spec (data : QueryResultData) (format : String) :
    estimateSizeBytes data format = estimateSizeBytesSpec data format := by
  unfold estimateSizeBytes estimateSizeBytesSpec
  by_cases hrows : data.rows.length = 0
  · simp [hrows]
  · by_cases htot : data.total_rows = 0
    · simp only [hrows, htot, if_neg hrows, false_or, if_pos rfl,
        Nat.mul_zero, Nat.zero_div]
      split <;> simp
    · have hor : ¬ (data.rows.length = 0 ∨ data.total_rows = 0) := by
        simp [hrows, htot]
      simp only [if_neg hrows, if_neg hor]
      split <;> rw [utf8Len_concatAll]

/-!
## JSON formatter claim: parser inversion lemmas
-/

/-- Whitespace-only character list. -/
def WsOnly (w : List Char) : Prop := ∀ c ∈ w, isWsChar c = true

/-- Input that does not begin with a decimal digit (so a preceding
integer token cannot be extended by it). -/
def NotDigitStart : List Char → Prop
  | [] => True
  | c :: _ => isDigitCh c = false

theorem wsOnly_nil : WsOnly [] := by intro c hc; cases hc

theorem wsOnly_append {a b : List Char} (ha : WsOnly a) (hb : WsOnly b) :
    WsOnly (a ++ b) := by
  intro c hc
  rcases List.mem_append.mp hc with h | h
  · exact ha c h
  · exact hb c h

theorem wsOnly_iff_all (w : List Char) : WsOnly w ↔ w.all isWsChar = true := by
  simp [WsOnly, List.all_eq_true]

theorem dropWs_ws_append {w : List Char} (hw : WsOnly w) (cs : List Char) :
    dropWs (w ++ cs) = dropWs cs := by
  induction w with
  | nil => rfl
  | cons c rest ih =>
    have hc : isWsChar c = true := hw c (List.mem_cons_self c rest)
    simp only [List.cons_append, dropWs, if_pos hc]
    exact ih fun x hx => hw x (List.mem_cons_of_mem c hx)

theorem dropWs_not_ws {c : Char} (h : isWsChar c = false) (cs : List Char) :
    dropWs (c :: cs) = c :: cs := by
  simp [dropWs, h]

theorem toNat_ofNat_lt (n : Nat) (h : n < 0xd800) : (Char.ofNat n).toNat = n := by
  unfold Char.ofNat
  rw [dif_pos (Or.inl h)]
  show (UInt32.toNat ⟨BitVec.ofNatLt n _⟩) = n
  rfl

theorem hexValOf_hexDigitChar (n : Nat) : hexValOf (hexDigitChar n) = some (n % 16) := by
  unfold hexDigitChar
  generalize hg : n % 16 = m
  have h16 : m < 16 := hg ▸ Nat.mod_lt _ (by omega)
  interval_cases m <;> decide

/-- The parser's string body inverts `json.dumps` escaping. -/
theorem parseStrBody_round (s : List Char) (rest : List Char) :
    parseStrBody (s.flatMap jsonEscapeChar ++ '"' :: rest) = some (s, rest) := by
  induction s with
  | nil =>
    rw [List.flatMap_nil, List.nil_append, parseStrBody.eq_def]
    simp
  | cons c cs ih =>
    rw [List.flatMap_cons, List.append_assoc]
    by_cases h1 : c = '"'
    · subst h1
      rw [show jsonEscapeChar '"' = ['\\', '"'] from rfl, List.cons_append,
        List.cons_append, List.nil_append, parseStrBody.eq_def]
      simp only [if_neg (show ¬ ('\\' : Char) = '"' by decide), if_pos rfl]
      rw [if_neg (show ¬ ('"' : Char) = 'u' by decide)]
      simp [jsonUnescapeCh, ih]
    · by_cases h2 : c = '\\'
      · subst h2
        rw [show jsonEscapeChar '\\' = ['\\', '\\'] from rfl, List.cons_append,
          List.cons_append, List.nil_append, parseStrBody.eq_def]
        simp only [if_neg (show ¬ ('\\' : Char) = '"' by decide), if_pos rfl]
        rw [if_neg (show ¬ ('\\' : Char) = 'u' by decide)]
        simp [jsonUnescapeCh, ih]
      · by_cases h3 : c = Char.ofNat 8
        · subst h3
          rw [show jsonEscapeChar (Char.ofNat 8) = ['\\', 'b'] from rfl,
            List.cons_append, List.cons_append, List.nil_append, parseStrBody.eq_def]
          simp only [if_neg (show ¬ ('\\' : Char) = '"' by decide), if_pos rfl]
          rw [if_neg (show ¬ ('b' : Char) = 'u' by decide)]
          simp [jsonUnescapeCh, ih]
        · by_cases h4 : c = '\t'
          · subst h4
            rw [show jsonEscapeChar '\t' = ['\\', 't'] from rfl, List.cons_append,
              List.cons_append, List.nil_append, parseStrBody.eq_def]
            simp only [if_neg (show ¬ ('\\' : Char) = '"' by decide), if_pos rfl]
            rw [if_neg (show ¬ ('t' : Char) = 'u' by decide)]
            simp [jsonUnescapeCh, ih]
          · by_cases h5 : c = '\n'
            · subst h5
              rw [show jsonEscapeChar '\n' = ['\\', 'n'] from rfl, List.cons_append,
                List.cons_append, List.nil_append, parseStrBody.eq_def]
              simp only [if_neg (show ¬ ('\\' : Char) = '"' by decide), if_pos rfl]
              rw [if_neg (show ¬ ('n' : Char) = 'u' by decide)]
              simp [jsonUnescapeCh, ih]
            · by_cases h6 : c = Char.ofNat 12
              · subst h6
                rw [show jsonEscapeChar (Char.ofNat 12) = ['\\', 'f'] from rfl,
                  List.cons_append, List.cons_append, List.nil_append,
                  parseStrBody.eq_def]
                simp only [if_neg (show ¬ ('\\' : Char) = '"' by decide), if_pos rfl]
                rw [if_neg (show ¬ ('f' : Char) = 'u' by decide)]
                simp [jsonUnescapeCh, ih]
              · by_cases h7 : c = '\r'
                · subst h7
                  rw [show jsonEscapeChar '\r' = ['\\', 'r'] from rfl,
                    List.cons_append, List.cons_append, List.nil_append,
                    parseStrBody.eq_def]
                  simp only [if_neg (show ¬ ('\\' : Char) = '"' by decide),
                    if_pos rfl]
                  rw [if_neg (show ¬ ('r' : Char) = 'u' by decide)]
                  simp [jsonUnescapeCh, ih]
                · by_cases h8 : c.toNat < 0x20
                  · have he : jsonEscapeChar c =
                        ['\\', 'u', '0', '0', hexDigitChar (c.toNat / 16),
                         hexDigitChar c.toNat] := by
                      simp only [jsonEscapeChar, if_neg h1, if_neg h2, if_neg h3,
                        if_neg h4, if_neg h5, if_neg h6, if_neg h7, if_pos h8]
                    rw [he, List.cons_append, List.cons_append, List.cons_append,
                      List.cons_append, List.cons_append, List.cons_append,
                      List.nil_append, parseStrBody.eq_def]
                    simp only [if_neg (show ¬ ('\\' : Char) = '"' by decide),
                      if_pos rfl, if_true]
                    have hv0 : hexValOf '0' = some 0 := by decide
                    rw [hv0, hexValOf_hexDigitChar, hexValOf_hexDigitChar]
                    have harith : ((0 * 16 + 0) * 16 + c.toNat / 16 % 16) * 16 +
                        c.toNat % 16 = c.toNat := by
                      have hdiv : c.toNat / 16 % 16 = c.toNat / 16 := by omega
                      rw [hdiv]; omega
                    simp only [harith, Char.ofNat_toNat, ih]
                    rfl
                  · have he : jsonEscapeChar c = [c] := by
                      simp only [jsonEscapeChar, if_neg h1, if_neg h2, if_neg h3,
                        if_neg h4, if_neg h5, if_neg h6, if_neg h7, if_neg h8]
                    rw [he, List.singleton_append, parseStrBody.eq_def]
                    simp only [if_neg h1, if_neg h2, ih]
                    rfl

theorem digitChar_isDigit : ∀ k, k < 10 → isDigitCh (Char.ofNat ('0'.toNat + k)) = true := by
  decide

theorem digitChar_ne_minus : ∀ k, k < 10 → Char.ofNat ('0'.toNat + k) ≠ '-' := by
  decide

theorem not_isDigit_of_eq {c d : Char} (h : isDigitCh d = false) (he : c = d) :
    isDigitCh c = false := he ▸ h

theorem ws_of_isWsChar {c : Char} (h : isWsChar c = true) :
    c = ' ' ∨ c = '\t' ∨ c = '\n' ∨ c = '\r' := by
  simp only [isWsChar, Bool.or_eq_true, decide_eq_true_eq] at h
  tauto

theorem not_digit_of_ws {c : Char} (h : isWsChar c = true) : isDigitCh c = false := by
  rcases ws_of_isWsChar h with rfl | rfl | rfl | rfl <;> decide

theorem not_ws_of_digit {c : Char} (h : isDigitCh c = true) : isWsChar c = false := by
  cases hw : isWsChar c
  · rfl
  · rw [not_digit_of_ws hw] at h
    cases h

theorem decDigits_lt10 {n : Nat} (h : n < 10) :
    decDigits n = [Char.ofNat ('0'.toNat + n)] := by
  unfold decDigits
  cases n with
  | zero => rfl
  | succ m => simp [decDigitsGo, h]

theorem decDigitsGo_succ_ge (f n : Nat) (h : ¬ n < 10) :
    decDigitsGo (f + 1) n =
      decDigitsGo f (n / 10) ++ [Char.ofNat ('0'.toNat + n % 10)] := by
  simp [decDigitsGo, h]

theorem decDigitsGo_fuel : ∀ fuel n, n ≤ fuel → decDigitsGo fuel n = decDigits n := by
  intro fuel
  induction fuel using Nat.strong_induction_on with
  | _ fuel ih =>
    intro n hn
    by_cases h10 : n < 10
    · rw [decDigits_lt10 h10]
      cases fuel with
      | zero =>
        have : n = 0 := by omega
        subst this
        rfl
      | succ f => simp [decDigitsGo, h10]
    · cases fuel with
      | zero => omega
      | succ f =>
        rw [decDigitsGo_succ_ge f n h10, ih f (by omega) (n / 10) (by omega)]
        obtain ⟨m, rfl⟩ : ∃ m, n = m + 1 := ⟨n - 1, by omega⟩
        show _ = decDigitsGo (m + 1) (m + 1)
        rw [decDigitsGo_succ_ge m (m + 1) h10,
          ih m (by omega) ((m + 1) / 10) (by omega)]

theorem decDigits_step {n : Nat} (h : 10 ≤ n) :
    decDigits n = decDigits (n / 10) ++ [Char.ofNat ('0'.toNat + n % 10)] := by
  obtain ⟨m, rfl⟩ : ∃ m, n = m + 1 := ⟨n - 1, by omega⟩
  show decDigitsGo (m + 1) (m + 1) = _
  rw [decDigitsGo_succ_ge m (m + 1) (by omega),
    decDigitsGo_fuel m ((m + 1) / 10) (by omega)]

theorem digitsVal_append_digit (ds : List Char) (d : Char) :
    digitsVal (ds ++ [d]) = digitsVal ds * 10 + (d.toNat - '0'.toNat) := by
  simp [digitsVal, List.foldl_append]

theorem digitsVal_decDigits (n : Nat) : digitsVal (decDigits n) = n := by
  induction n using Nat.strong_induction_on with
  | _ n ih =>
    have h0 : '0'.toNat = 48 := rfl
    by_cases h10 : n < 10
    · rw [decDigits_lt10 h10]
      simp only [digitsVal, List.foldl_cons, List.foldl_nil, Nat.zero_mul,
        Nat.zero_add]
      rw [toNat_ofNat_lt _ (by omega)]
      omega
    · rw [decDigits_step (by omega), digitsVal_append_digit,
        ih (n / 10) (by omega)]
      rw [toNat_ofNat_lt _ (by omega)]
      omega

theorem decDigits_all_digits (n : Nat) : ∀ c ∈ decDigits n, isDigitCh c = true := by
  induction n using Nat.strong_induction_on with
  | _ n ih =>
    intro c hc
    by_cases h10 : n < 10
    · rw [decDigits_lt10 h10] at hc
      simp only [List.mem_singleton] at hc
      subst hc
      exact digitChar_isDigit n h10
    · rw [decDigits_step (by omega)] at hc
      rcases List.mem_append.mp hc with h | h
      · exact ih (n / 10) (by omega) c h
      · simp only [List.mem_singleton] at h
        subst h
        exact digitChar_isDigit _ (by omega)

theorem decDigits_ne_nil (n : Nat) : decDigits n ≠ [] := by
  by_cases h10 : n < 10
  · rw [decDigits_lt10 h10]; simp
  · rw [decDigits_step (by omega)]; simp

theorem takeDigitsPref_spec (ds : List Char) (rest : List Char)
    (hds : ∀ c ∈ ds, isDigitCh c = true) (hrest : NotDigitStart rest) :
    takeDigitsPref (ds ++ rest) = (ds, rest) := by
  induction ds with
  | nil =>
    cases rest with
    | nil => rfl
    | cons c r =>
      simp only [NotDigitStart] at hrest
      simp [takeDigitsPref, hrest]
  | cons d ds ih =>
    have hd : isDigitCh d = true := hds d (List.mem_cons_self d ds)
    have ih' := ih fun c hc => hds c (List.mem_cons_of_mem d hc)
    simp only [List.cons_append, takeDigitsPref, if_pos hd, List.append_eq, ih']

theorem parseIntTok_round (n : Int) (rest : List Char) (hrest : NotDigitStart rest) :
    parseIntTok (pyIntChars n ++ rest) = some (n, rest) := by
  obtain ⟨d, ds, hds⟩ : ∃ d ds, decDigits n.natAbs = d :: ds := by
    cases h : decDigits n.natAbs with
    | nil => exact absurd h (decDigits_ne_nil _)
    | cons d ds => exact ⟨d, ds, rfl⟩
  have hdig : ∀ c ∈ d :: ds, isDigitCh c = true := by
    rw [← hds]; exact decDigits_all_digits _
  have htake : takeDigitsPref (d :: (ds ++ rest)) = (d :: ds, rest) := by
    have := takeDigitsPref_spec (d :: ds) rest hdig hrest
    simpa using this
  have hval : digitsVal (d :: ds) = n.natAbs := by
    rw [← hds]; exact digitsVal_decDigits _
  by_cases hneg : n < 0
  · simp only [pyIntChars, if_pos hneg, hds, List.cons_append, List.nil_append]
    rw [parseIntTok.eq_def]
    simp only [if_pos rfl, if_true, List.append_eq, htake, hval]
    have : -(n.natAbs : Int) = n := by omega
    rw [this]
  · simp only [pyIntChars, if_neg hneg, hds, List.nil_append, List.cons_append]
    rw [parseIntTok.eq_def]
    have hdne : ¬ d = '-' := by
      intro heq
      have := hdig d (List.mem_cons_self d ds)
      rw [heq] at this
      exact absurd this (by decide)
    simp only [if_neg hdne, List.append_eq, htake, hval]
    have : (n.natAbs : Int) = n := by omega
    rw [this]

theorem digit_ne_quote {d : Char} (h : isDigitCh d = true) : ¬ d = '"' := by
  intro heq; rw [heq] at h; exact absurd h (by decide)

theorem digit_ne_n {d : Char} (h : isDigitCh d = true) : ¬ d = 'n' := by
  intro heq; rw [heq] at h; exact absurd h (by decide)

theorem digit_ne_t {d : Char} (h : isDigitCh d = true) : ¬ d = 't' := by
  intro heq; rw [heq] at h; exact absurd h (by decide)

theorem digit_ne_f {d : Char} (h : isDigitCh d = true) : ¬ d = 'f' := by
  intro heq; rw [heq] at h; exact absurd h (by decide)

/-- The scalar parser inverts the scalar renderer (given the following
input cannot extend an integer literal). -/
theorem parseScalarTok_round (v : PyValue) (rest : List Char)
    (hrest : NotDigitStart rest) :
    parseScalarTok (scalarChars v ++ rest) = some (v, rest) := by
  cases v with
  | null => simp [scalarChars, parseScalarTok, stripLit]
  | bool b => cases b <;> simp [scalarChars, parseScalarTok, stripLit]
  | str s =>
    cases s with
    | mk data =>
      show parseScalarTok (('"' :: (data.flatMap jsonEscapeChar ++ ['"'])) ++ rest) =
        some (.str (String.mk data), rest)
      rw [List.cons_append, List.append_assoc, List.singleton_append]
      rw [parseScalarTok.eq_def]
      simp only [if_pos rfl, if_true, parseStrBody_round]
      rfl
  | int n =>
    show parseScalarTok (pyIntChars n ++ rest) = some (.int n, rest)
    by_cases hneg : n < 0
    · have hpc : pyIntChars n = '-' :: decDigits n.natAbs := by
        simp [pyIntChars, if_pos hneg]
      rw [hpc, List.cons_append, parseScalarTok.eq_def]
      simp only [if_neg (show ¬ ('-' : Char) = '"' by decide),
        if_neg (show ¬ ('-' : Char) = 'n' by decide),
        if_neg (show ¬ ('-' : Char) = 't' by decide),
        if_neg (show ¬ ('-' : Char) = 'f' by decide)]
      have : '-' :: (decDigits n.natAbs ++ rest) = pyIntChars n ++ rest := by
        rw [hpc, List.cons_append]
      rw [this, parseIntTok_round n rest hrest]
      rfl
    · obtain ⟨d, ds, hds⟩ : ∃ d ds, decDigits n.natAbs = d :: ds := by
        cases h : decDigits n.natAbs with
        | nil => exact absurd h (decDigits_ne_nil _)
        | cons d ds => exact ⟨d, ds, rfl⟩
      have hd : isDigitCh d = true := by
        have := decDigits_all_digits n.natAbs
        rw [hds] at this
        exact this d (List.mem_cons_self d ds)
      have hpc : pyIntChars n = d :: ds := by
        simp [pyIntChars, if_neg hneg, hds]
      rw [hpc, List.cons_append, parseScalarTok.eq_def]
      simp only [if_neg (digit_ne_quote hd), if_neg (digit_ne_n hd),
        if_neg (digit_ne_t hd), if_neg (digit_ne_f hd)]
      have : d :: (ds ++ rest) = pyIntChars n ++ rest := by
        rw [hpc, List.cons_append]
      rw [this, parseIntTok_round n rest hrest]
      rfl

/-- Scalar renders never begin with whitespace. -/
theorem dropWs_scalarChars (v : PyValue) (X : List Char) :
    dropWs (scalarChars v ++ X) = scalarChars v ++ X := by
  cases v with
  | null => simp [scalarChars, dropWs, isWsChar]
  | bool b => cases b <;> simp [scalarChars, dropWs, isWsChar]
  | str s => simp [scalarChars, jsonStrChars, dropWs, isWsChar]
  | int n =>
    show dropWs (pyIntChars n ++ X) = pyIntChars n ++ X
    by_cases hneg : n < 0
    · have hpc : pyIntChars n = '-' :: decDigits n.natAbs := by
        simp [pyIntChars, if_pos hneg]
      rw [hpc, List.cons_append]
      exact dropWs_not_ws (by decide) _
    · obtain ⟨d, ds, hds⟩ : ∃ d ds, decDigits n.natAbs = d :: ds := by
        cases h : decDigits n.natAbs with
        | nil => exact absurd h (decDigits_ne_nil _)
        | cons d ds => exact ⟨d, ds, rfl⟩
      have hd : isDigitCh d = true := by
        have := decDigits_all_digits n.natAbs
        rw [hds] at this
        exact this d (List.mem_cons_self d ds)
      have hpc : pyIntChars n = d :: ds := by
        simp [pyIntChars, if_neg hneg, hds]
      rw [hpc, List.cons_append]
      exact dropWs_not_ws (not_ws_of_digit hd) _

theorem notDigitStart_ws_then {w : List Char} (hw : WsOnly w) {c : Char}
    (hc : isDigitCh c = false) (rest : List Char) :
    NotDigitStart (w ++ c :: rest) := by
  cases w with
  | nil => exact hc
  | cons w0 ws =>
    show isDigitCh w0 = false
    exact not_digit_of_ws (hw w0 (List.mem_cons_self w0 ws))

/-- The members parser inverts the rendered members region: leading
whitespace `w`, members separated by `','` plus whitespace `wsep`,
trailing whitespace `wend`, then the closing brace. -/
theorem parseMembers_round :
    ∀ (ms : List (String × PyValue)) (fuel : Nat) (w wsep wend rest : List Char),
      ms ≠ [] → ms.length ≤ fuel → WsOnly w → WsOnly wsep → WsOnly wend →
      parseMembers fuel (w ++ membersRegion wsep wend ms ++ '}' :: rest) =
        some (ms, rest) := by
  intro ms
  induction ms with
  | nil => intro _ _ _ _ _ hne; exact absurd rfl hne
  | cons kv tail ih =>
    intro fuel w wsep wend rest _ hfuel hw hwsep hwend
    obtain ⟨k, v⟩ := kv
    cases fuel with
    | zero => simp at hfuel
    | succ f =>
      cases tail with
      | nil =>
        have hshape : w ++ membersRegion wsep wend [(k, v)] ++ '}' :: rest =
            w ++ '"' :: (k.data.flatMap jsonEscapeChar ++
              '"' :: (':' :: ' ' :: (scalarChars v ++ (wend ++ '}' :: rest)))) := by
          simp [membersRegion, memberChars, jsonStrChars, List.append_assoc]
        rw [hshape]
        simp only [parseMembers, dropWs_ws_append hw,
          dropWs_not_ws (show isWsChar '"' = false by decide),
          parseStrBody_round,
          dropWs_not_ws (show isWsChar ':' = false by decide)]
        rw [show dropWs (' ' :: (scalarChars v ++ (wend ++ '}' :: rest))) =
            scalarChars v ++ (wend ++ '}' :: rest) from by
          simp only [dropWs, if_pos (show isWsChar ' ' = true by decide)]
          exact dropWs_scalarChars v _]
        rw [parseScalarTok_round v _ (notDigitStart_ws_then hwend (by decide) rest)]
        simp only [dropWs_ws_append hwend,
          dropWs_not_ws (show isWsChar '}' = false by decide)]
      | cons m ms' =>
        have hshape : w ++ membersRegion wsep wend ((k, v) :: m :: ms') ++
            '}' :: rest =
            w ++ '"' :: (k.data.flatMap jsonEscapeChar ++
              '"' :: (':' :: ' ' :: (scalarChars v ++
                (',' :: (wsep ++ (membersRegion wsep wend (m :: ms') ++
                  '}' :: rest)))))) := by
          simp [membersRegion, memberChars, jsonStrChars, List.append_assoc]
        rw [hshape]
        simp only [parseMembers, dropWs_ws_append hw,
          dropWs_not_ws (show isWsChar '"' = false by decide),
          parseStrBody_round,
          dropWs_not_ws (show isWsChar ':' = false by decide)]
        rw [show dropWs (' ' :: (scalarChars v ++
            (',' :: (wsep ++ (membersRegion wsep wend (m :: ms') ++
              '}' :: rest))))) =
            scalarChars v ++ (',' :: (wsep ++ (membersRegion wsep wend (m :: ms') ++
              '}' :: rest))) from by
          simp only [dropWs, if_pos (show isWsChar ' ' = true by decide)]
          exact dropWs_scalarChars v _]
        rw [parseScalarTok_round v _ (by exact rfl)]
        simp only [dropWs_not_ws (show isWsChar ',' = false by decide)]
        have ih' := ih f wsep wsep wend rest (by simp) (by simpa using hfuel)
          hwsep hwsep hwend
        rw [List.append_assoc] at ih'
        rw [ih']

theorem mk_append (a b : List Char) :
    String.mk a ++ String.mk b = String.mk (a ++ b) := rfl

theorem hexDigitChar_ne_nl (n : Nat) : hexDigitChar n ≠ '\n' := by
  unfold hexDigitChar
  generalize hg : n % 16 = m
  have h16 : m < 16 := hg ▸ Nat.mod_lt _ (by omega)
  interval_cases m <;> decide

theorem noNl_escape (c : Char) : '\n' ∉ jsonEscapeChar c := by
  unfold jsonEscapeChar
  split_ifs with h1 h2 h3 h4 h5 h6 h7 h8
  · decide
  · decide
  · decide
  · decide
  · decide
  · decide
  · decide
  · intro hmem
    simp only [List.mem_cons, List.not_mem_nil, or_false] at hmem
    rcases hmem with h | h | h | h | h | h
    · exact absurd h.symm (by decide)
    · exact absurd h.symm (by decide)
    · exact absurd h.symm (by decide)
    · exact absurd h.symm (by decide)
    · exact (hexDigitChar_ne_nl _) h.symm
    · exact (hexDigitChar_ne_nl _) h.symm
  · intro hmem
    simp only [List.mem_singleton] at hmem
    exact h5 hmem.symm

theorem noNl_strChars (s : String) : '\n' ∉ jsonStrChars s := by
  intro hmem
  unfold jsonStrChars at hmem
  rcases List.mem_cons.mp hmem with h | h
  · exact absurd h.symm (by decide)
  rcases List.mem_append.mp h with h2 | h2
  · obtain ⟨c, _, hc⟩ := List.mem_flatMap.mp h2
    exact noNl_escape c hc
  · simp only [List.mem_singleton] at h2
    exact absurd h2.symm (by decide)

theorem noNl_digits (n : Nat) : '\n' ∉ decDigits n := by
  intro hmem
  have := decDigits_all_digits n _ hmem
  exact absurd this (by decide)

theorem noNl_scalar (v : PyValue) : '\n' ∉ scalarChars v := by
  cases v with
  | null => decide
  | bool b => cases b <;> decide
  | str s => exact noNl_strChars s
  | int n =>
    show '\n' ∉ pyIntChars n
    intro hmem
    simp only [pyIntChars, List.mem_append] at hmem
    rcases hmem with h | h
    · split at h
      · simp only [List.mem_singleton] at h
        exact absurd h.symm (by decide)
      · cases h
    · exact noNl_digits n.natAbs h

theorem noNl_member (kv : String × PyValue) : '\n' ∉ memberChars kv := by
  intro hmem
  simp only [memberChars, List.mem_append, List.mem_cons] at hmem
  rcases hmem with h | h | h | h
  · exact noNl_strChars kv.1 h
  · exact absurd h.symm (by decide)
  · exact absurd h.symm (by decide)
  · exact noNl_scalar kv.2 h

theorem splitLines_ne_nil (a : List Char) : splitLines a ≠ [] := by
  cases a with
  | nil => simp [splitLines]
  | cons c rest =>
    unfold splitLines
    split_ifs
    · simp
    · cases h : splitLines rest <;> simp

theorem splitLines_noNl (a : List Char) (ha : '\n' ∉ a) : splitLines a = [a] := by
  induction a with
  | nil => rfl
  | cons c rest ih =>
    have hc : ¬ c = '\n' := fun h => ha (h ▸ List.mem_cons_self c rest)
    have hrest : '\n' ∉ rest := fun h => ha (List.mem_cons_of_mem c h)
    unfold splitLines
    rw [if_neg hc, ih hrest]

theorem splitLines_concat (a : List Char) (ha : '\n' ∉ a) (b : List Char) :
    splitLines (a ++ '\n' :: b) = a :: splitLines b := by
  induction a with
  | nil => simp [splitLines]
  | cons c rest ih =>
    have hc : ¬ c = '\n' := fun h => ha (h ▸ List.mem_cons_self c rest)
    have hrest : '\n' ∉ rest := fun h => ha (List.mem_cons_of_mem c h)
    rw [List.cons_append]
    conv_lhs => rw [splitLines.eq_def]
    simp only [if_neg hc]
    rw [ih hrest]

theorem joinSep_cons_cons (sep : String) (x y : String) (xs : List String) :
    joinSep sep (x :: y :: xs) = x ++ sep ++ joinSep sep (y :: xs) := rfl

theorem pyIndentLines_noNl (a : List Char) (ha : '\n' ∉ a) :
    pyIndentLines (String.mk a) = String.mk (' ' :: ' ' :: a) := by
  unfold pyIndentLines
  rw [show (String.mk a).data = a from rfl, splitLines_noNl a ha]
  rfl

theorem pyIndentLines_step (a : List Char) (ha : '\n' ∉ a) (b : List Char) :
    pyIndentLines (String.mk (a ++ '\n' :: b)) =
      String.mk (' ' :: ' ' :: a) ++ "\n" ++ pyIndentLines (String.mk b) := by
  unfold pyIndentLines
  rw [show (String.mk (a ++ '\n' :: b)).data = a ++ '\n' :: b from rfl,
    show (String.mk b).data = b from rfl, splitLines_concat a ha b]
  cases hb : splitLines b with
  | nil => exact absurd hb (splitLines_ne_nil b)
  | cons l ls =>
    rw [List.map_cons, List.map_cons, joinSep_cons_cons]
    rfl

/-- The pretty pipeline (`json.dumps(…, indent=2)` then the two-space
re-indent of every line) in closed form, non-empty object. -/
theorem indent_dumps_cons (ms : List (String × PyValue)) (h : ms ≠ []) :
    pyIndentLines (pyJsonDumpsIndent ms) =
      String.mk (' ' :: ' ' :: '{' :: '\n' :: ' ' :: ' ' :: ' ' :: ' ' ::
        (membersRegion ['\n', ' ', ' ', ' ', ' '] ['\n', ' ', ' '] ms ++ ['}'])) := by
  have haux : ∀ (ms : List (String × PyValue)), ms ≠ [] →
      pyIndentLines (String.mk (' ' :: ' ' ::
          (membersRegion ['\n', ' ', ' '] ['\n'] ms ++ ['}']))) =
        String.mk (' ' :: ' ' :: ' ' :: ' ' ::
          (membersRegion ['\n', ' ', ' ', ' ', ' '] ['\n', ' ', ' '] ms ++ ['}'])) := by
    intro ms
    induction ms with
    | nil => intro hne; exact absurd rfl hne
    | cons kv tail ih =>
      intro _
      cases tail with
      | nil =>
        have hshape : ' ' :: ' ' ::
            (membersRegion ['\n', ' ', ' '] ['\n'] [kv] ++ ['}']) =
            (' ' :: ' ' :: memberChars kv) ++ '\n' :: ['}'] := by
          simp [membersRegion]
        rw [hshape, pyIndentLines_step _ (by
          intro hmem
          simp only [List.mem_cons] at hmem
          rcases hmem with h | h | h
          · exact absurd h.symm (by decide)
          · exact absurd h.symm (by decide)
          · exact noNl_member kv h)]
        rw [pyIndentLines_noNl ['}'] (by decide)]
        rw [mk_append, mk_append]
        apply String.ext
        simp [membersRegion]
      | cons m ms' =>
        have hshape : ' ' :: ' ' ::
            (membersRegion ['\n', ' ', ' '] ['\n'] (kv :: m :: ms') ++ ['}']) =
            (' ' :: ' ' :: (memberChars kv ++ [','])) ++ '\n' ::
              (' ' :: ' ' :: (membersRegion ['\n', ' ', ' '] ['\n'] (m :: ms') ++
                ['}'])) := by
          simp [membersRegion]
        rw [hshape, pyIndentLines_step _ (by
          intro hmem
          simp only [List.mem_cons, List.mem_append, List.mem_singleton] at hmem
          rcases hmem with h | h | h | h
          · exact absurd h.symm (by decide)
          · exact absurd h.symm (by decide)
          · exact noNl_member kv h
          · exact absurd h.symm (by decide))]
        rw [ih (by simp), mk_append, mk_append]
        apply String.ext
        simp [membersRegion]
  cases ms with
  | nil => exact absurd rfl h
  | cons kv tail =>
    have hdumps : pyJsonDumpsIndent (kv :: tail) =
        String.mk (['{'] ++ '\n' :: (' ' :: ' ' ::
          (membersRegion ['\n', ' ', ' '] ['\n'] (kv :: tail) ++ ['}']))) := by
      apply String.ext
      simp [pyJsonDumpsIndent]
    rw [hdumps, pyIndentLines_step ['{'] (by decide),
      haux (kv :: tail) (List.cons_ne_nil kv tail), mk_append, mk_append]
    apply String.ext
    simp

/-- The object parser inverts a rendered object: optional whitespace,
`{`, whitespace `wpre`, the members region, `}`. -/
theorem parseObjTok_round (ms : List (String × PyValue)) (mfuel : Nat)
    (w wpre wsep wend rest : List Char) (hfuel : ms.length ≤ mfuel)
    (hw : WsOnly w) (hwpre : WsOnly wpre) (hwsep : WsOnly wsep)
    (hwend : WsOnly wend) :
    parseObjTok mfuel
        (w ++ '{' :: (wpre ++ (membersRegion wsep wend ms ++ '}' :: rest))) =
      some (ms, rest) := by
  simp only [parseObjTok, dropWs_ws_append hw,
    dropWs_not_ws (show isWsChar '{' = false by decide)]
  cases ms with
  | nil =>
    have : dropWs (wpre ++ (membersRegion wsep wend [] ++ '}' :: rest)) =
        '}' :: rest := by
      show dropWs (wpre ++ (wend ++ '}' :: rest)) = '}' :: rest
      rw [dropWs_ws_append hwpre, dropWs_ws_append hwend]
      exact dropWs_not_ws (by decide) rest
    rw [this]
    rfl
  | cons m tail =>
    obtain ⟨Q, hQ⟩ : ∃ Q, membersRegion wsep wend (m :: tail) =
        memberChars m ++ Q := by
      cases tail with
      | nil => exact ⟨wend, rfl⟩
      | cons m' tl =>
        refine ⟨',' :: wsep ++ membersRegion wsep wend (m' :: tl), ?_⟩
        simp [membersRegion]
    obtain ⟨k, v⟩ := m
    have hdrop : dropWs (wpre ++ (membersRegion wsep wend ((k, v) :: tail) ++
        '}' :: rest)) =
        '"' :: ((k.data.flatMap jsonEscapeChar ++ ['"'] ++
          (':' :: ' ' :: scalarChars v ++ Q)) ++ '}' :: rest) := by
      rw [hQ, dropWs_ws_append hwpre]
      have : memberChars (k, v) ++ Q ++ '}' :: rest =
          '"' :: ((k.data.flatMap jsonEscapeChar ++ ['"'] ++
            (':' :: ' ' :: scalarChars v ++ Q)) ++ '}' :: rest) := by
        simp [memberChars, jsonStrChars]
      rw [this]
      exact dropWs_not_ws (by decide) _
    rw [hdrop]
    have hrun := parseMembers_round ((k, v) :: tail) mfuel wpre wsep wend rest
      (by simp) hfuel hwpre hwsep hwend
    rw [List.append_assoc] at hrun
    exact hrun

/-- The object parser accepts both serialized forms the formatter
produces: the compact `json.dumps` object and the pretty re-indented
one. -/
theorem parseObjTok_mode (pretty : Bool) (ms : List (String × PyValue))
    (mfuel : Nat) (w rest : List Char) (hfuel : ms.length ≤ mfuel)
    (hw : WsOnly w) :
    parseObjTok mfuel (w ++
        ((if pretty then pyIndentLines (pyJsonDumpsIndent ms)
          else pyJsonDumpsCompact ms).data ++ rest)) =
      some (ms, rest) := by
  cases pretty with
  | false =>
    have hdata : (pyJsonDumpsCompact ms).data =
        '{' :: (membersRegion [' '] [] ms ++ ['}']) := rfl
    have hshape : w ++ ((pyJsonDumpsCompact ms).data ++ rest) =
        w ++ '{' :: (([] : List Char) ++ (membersRegion [' '] [] ms ++
          '}' :: rest)) := by
      rw [hdata]
      simp [List.append_assoc]
    rw [if_neg Bool.false_ne_true, hshape]
    exact parseObjTok_round ms mfuel w [] [' '] [] rest hfuel hw wsOnly_nil
      (by intro c hc; simp only [List.mem_singleton] at hc; subst hc; rfl)
      wsOnly_nil
  | true =>
    rw [if_pos rfl]
    cases ms with
    | nil =>
      have hdata : (pyIndentLines (pyJsonDumpsIndent [])).data =
          [' ', ' ', '{', '}'] := rfl
      have hshape : w ++ ((pyIndentLines (pyJsonDumpsIndent [])).data ++ rest) =
          (w ++ [' ', ' ']) ++ '{' :: (([] : List Char) ++
            (membersRegion [' '] [] [] ++ '}' :: rest)) := by
        rw [hdata]
        simp [membersRegion, List.append_assoc]
      rw [hshape]
      exact parseObjTok_round [] mfuel (w ++ [' ', ' ']) [] [' '] [] rest
        (by simp) (wsOnly_append hw ((wsOnly_iff_all _).mpr (by decide)))
        wsOnly_nil
        (by intro c hc; simp only [List.mem_singleton] at hc; subst hc; rfl)
        wsOnly_nil
    | cons kv tail =>
      have hdata := indent_dumps_cons (kv :: tail) (List.cons_ne_nil kv tail)
      have hshape : w ++ ((pyIndentLines (pyJsonDumpsIndent (kv :: tail))).data ++
          rest) =
          (w ++ [' ', ' ']) ++ '{' :: (['\n', ' ', ' ', ' ', ' '] ++
            (membersRegion ['\n', ' ', ' ', ' ', ' '] ['\n', ' ', ' ']
              (kv :: tail) ++ '}' :: rest)) := by
        rw [hdata]
        show w ++ ((' ' :: ' ' :: '{' :: '\n' :: ' ' :: ' ' :: ' ' :: ' ' ::
          (membersRegion ['\n', ' ', ' ', ' ', ' '] ['\n', ' ', ' ']
            (kv :: tail) ++ ['}'])) ++ rest) = _
        simp [List.append_assoc]
      rw [hshape]
      exact parseObjTok_round (kv :: tail) mfuel (w ++ [' ', ' '])
        ['\n', ' ', ' ', ' ', ' '] ['\n', ' ', ' ', ' ', ' '] ['\n', ' ', ' ']
        rest hfuel (wsOnly_append hw ((wsOnly_iff_all _).mpr (by decide)))
        ((wsOnly_iff_all _).mpr (by decide)) ((wsOnly_iff_all _).mpr (by decide))
        ((wsOnly_iff_all _).mpr (by decide))

/-- The characters of one yielded row chunk: the serialized object, the
absolute-position comma, the pretty newline. -/
theorem jsonRowChunk_data (pretty : Bool) (cols : List String) (n idx : Nat)
    (row : Row) :
    (jsonRowChunk pretty cols n idx row).data =
      (if pretty then pyIndentLines (pyJsonDumpsIndent (filteredRow cols row))
       else pyJsonDumpsCompact (filteredRow cols row)).data ++
      ((if idx < n - 1 then [','] else []) ++
       (if pretty then ['\n'] else [])) := by
  unfold jsonRowChunk
  cases pretty <;> split_ifs <;> simp [String.data_append]

/-- The items parser consumes the row chunks the formatter yields —
each the serialized object of its row plus the absolute-position comma
and pretty newline — up to and including the closing bracket. -/
theorem parseItems_chunks (pretty : Bool) (cols : List String) :
    ∀ (l : List Row) (k n : Nat) (w : List Char) (mfuel fuel : Nat)
      (rest : List Char),
      l ≠ [] → k + l.length = n → l.length ≤ fuel →
      (∀ r ∈ l, (filteredRow cols r).length ≤ mfuel) → WsOnly w →
      parseItems mfuel fuel
          (w ++ (((List.enumFrom k l).map
              (fun p => (jsonRowChunk pretty cols n p.1 p.2).data)).flatten ++
            ']' :: rest)) =
        some (l.map (filteredRow cols), rest) := by
  intro l
  induction l with
  | nil => intro _ _ _ _ _ _ hne; exact absurd rfl hne
  | cons r tail ih =>
    intro k n w mfuel fuel rest _ hkn hfuel hm hw
    cases fuel with
    | zero => simp at hfuel
    | succ f =>
      have hmr : (filteredRow cols r).length ≤ mfuel :=
        hm r (List.mem_cons_self r tail)
      rw [List.enumFrom_cons]
      simp only [List.map_cons, List.flatten_cons, jsonRowChunk_data]
      cases tail with
      | nil =>
        have hidx : ¬ (k < n - 1) := by
          simp only [List.length_cons, List.length_nil] at hkn
          omega
        rw [if_neg hidx]
        simp only [List.enumFrom_nil, List.map_nil, List.flatten_nil,
          List.nil_append, List.append_nil, parseItems]
        have hshape : w ++
            (((if pretty then pyIndentLines (pyJsonDumpsIndent (filteredRow cols r))
               else pyJsonDumpsCompact (filteredRow cols r)).data ++
              (if pretty then ['\n'] else [])) ++ ']' :: rest) =
            w ++
            ((if pretty then pyIndentLines (pyJsonDumpsIndent (filteredRow cols r))
              else pyJsonDumpsCompact (filteredRow cols r)).data ++
              ((if pretty then ['\n'] else []) ++ ']' :: rest)) := by
          simp [List.append_assoc]
        have hdropnl : dropWs ((if pretty then ['\n'] else ([] : List Char)) ++
            ']' :: rest) = ']' :: rest := by
          cases pretty <;> simp [dropWs, isWsChar]
        rw [hshape]
        simp only [parseObjTok_mode pretty (filteredRow cols r) mfuel w _ hmr hw,
          hdropnl]
      | cons r2 tl =>
        have hidx : k < n - 1 := by
          simp only [List.length_cons] at hkn
          omega
        rw [if_pos hidx]
        simp only [parseItems, List.append_assoc, List.singleton_append]
        have hws : WsOnly (if pretty then ['\n'] else ([] : List Char)) := by
          cases pretty
          · exact wsOnly_nil
          · exact (wsOnly_iff_all _).mpr (by decide)
        simp only [parseObjTok_mode pretty (filteredRow cols r) mfuel w _ hmr hw,
          List.cons_append, dropWs_not_ws (show isWsChar ',' = false by decide)]
        have ih' := ih (k + 1) n (if pretty then ['\n'] else []) mfuel f rest
          (List.cons_ne_nil r2 tl)
          (by simp only [List.length_cons] at hkn ⊢; omega)
          (by simp only [List.length_cons] at hfuel ⊢; omega)
          (fun x hx => hm x (List.mem_cons_of_mem r hx)) hws
        simp only [jsonRowChunk_data, List.append_assoc, List.singleton_append,
          List.cons_append] at ih'
        rw [ih']

theorem memberChars_len (kv : String × PyValue) : 1 ≤ (memberChars kv).length := by
  simp [memberChars, jsonStrChars]

theorem membersRegion_len (wsep wend : List Char) :
    ∀ ms : List (String × PyValue), ms.length ≤ (membersRegion wsep wend ms).length := by
  intro ms
  induction ms with
  | nil => simp [membersRegion]
  | cons kv tail ih =>
    cases tail with
    | nil =>
      have := memberChars_len kv
      simp only [membersRegion, List.length_cons, List.length_nil,
        List.length_append]
      omega
    | cons m tl =>
      have h1 := memberChars_len kv
      simp only [membersRegion, List.length_cons, List.length_append] at *
      omega

theorem objModeData_len (pretty : Bool) (ms : List (String × PyValue)) :
    ms.length + 1 ≤
      ((if pretty then pyIndentLines (pyJsonDumpsIndent ms)
        else pyJsonDumpsCompact ms).data).length := by
  cases pretty with
  | false =>
    have := membersRegion_len [' '] [] ms
    show ms.length + 1 ≤ ('{' :: (membersRegion [' '] [] ms ++ ['}'])).length
    simp only [List.length_cons, List.length_append, List.length_nil]
    omega
  | true =>
    cases ms with
    | nil => decide
    | cons kv tail =>
      rw [if_pos rfl, indent_dumps_cons (kv :: tail) (List.cons_ne_nil kv tail)]
      have hreg := membersRegion_len ['\n', ' ', ' ', ' ', ' '] ['\n', ' ', ' ']
        (kv :: tail)
      show (kv :: tail).length + 1 ≤ (' ' :: ' ' :: '{' :: '\n' :: ' ' :: ' ' ::
        ' ' :: ' ' :: (membersRegion ['\n', ' ', ' ', ' ', ' '] ['\n', ' ', ' ']
          (kv :: tail) ++ ['}'])).length
      have hlen : (' ' :: ' ' :: '{' :: '\n' :: ' ' :: ' ' ::
          ' ' :: ' ' :: (membersRegion ['\n', ' ', ' ', ' ', ' '] ['\n', ' ', ' ']
            (kv :: tail) ++ ['}'])).length =
          (membersRegion ['\n', ' ', ' ', ' ', ' '] ['\n', ' ', ' ']
            (kv :: tail)).length + 9 := by
        simp only [List.length_cons, List.length_append, List.length_nil]
        try omega
      rw [hlen]
      simp only [List.length_cons, List.length_nil] at hreg ⊢
      omega

theorem jsonRowChunk_len (pretty : Bool) (cols : List String) (n idx : Nat)
    (row : Row) :
    (filteredRow cols row).length + 1 ≤ (jsonRowChunk pretty cols n idx row).data.length := by
  rw [jsonRowChunk_data]
  have := objModeData_len pretty (filteredRow cols row)
  simp only [List.length_append]
  omega

theorem count_le_flatten_len (L : List (List Char)) (h : ∀ x ∈ L, 1 ≤ x.length) :
    L.length ≤ L.flatten.length := by
  induction L with
  | nil => simp
  | cons x xs ih =>
    have hx := h x (List.mem_cons_self x xs)
    have := ih fun y hy => h y (List.mem_cons_of_mem x hy)
    simp only [List.length_cons, List.flatten_cons, List.length_append]
    omega

theorem single_le_flatten_len (L : List (List Char)) (x : List Char) (hx : x ∈ L) :
    x.length ≤ L.flatten.length := by
  induction L with
  | nil => cases hx
  | cons y ys ih =>
    simp only [List.flatten_cons, List.length_append]
    rcases List.mem_cons.mp hx with rfl | h
    · omega
    · have := ih h
      omega

theorem mem_enumFrom_of_mem : ∀ (l : List α) (k : Nat) (a : α), a ∈ l →
    ∃ i, (i, a) ∈ List.enumFrom k l := by
  intro l
  induction l with
  | nil => intro _ _ h; cases h
  | cons x xs ih =>
    intro k a ha
    rcases List.mem_cons.mp ha with rfl | h
    · exact ⟨k, List.mem_cons_self _ _⟩
    · obtain ⟨i, hi⟩ := ih (k + 1) a h
      exact ⟨i, List.mem_cons_of_mem _ hi⟩

/-- Every serialized object starts, after whitespace, with `{`. -/
theorem objModeData_brace (pretty : Bool) (ms : List (String × PyValue)) :
    ∃ w S, (if pretty then pyIndentLines (pyJsonDumpsIndent ms)
        else pyJsonDumpsCompact ms).data = w ++ '{' :: S ∧ WsOnly w := by
  cases pretty with
  | false =>
    exact ⟨[], membersRegion [' '] [] ms ++ ['}'], rfl, wsOnly_nil⟩
  | true =>
    cases ms with
    | nil =>
      exact ⟨[' ', ' '], ['}'], rfl, (wsOnly_iff_all _).mpr (by decide)⟩
    | cons kv tail =>
      refine ⟨[' ', ' '], '\n' :: ' ' :: ' ' :: ' ' :: ' ' ::
        (membersRegion ['\n', ' ', ' ', ' ', ' '] ['\n', ' ', ' ']
          (kv :: tail) ++ ['}']), ?_, (wsOnly_iff_all _).mpr (by decide)⟩
      rw [if_pos rfl, indent_dumps_cons (kv :: tail) (List.cons_ne_nil kv tail)]
      rfl

theorem dictInsert_keys (d : List (String × PyValue)) (k : String) (v : PyValue)
    (q : String) :
    (∃ u, (q, u) ∈ dictInsert d k v) ↔ ((∃ u, (q, u) ∈ d) ∨ q = k) := by
  unfold dictInsert
  split_ifs with hany
  · constructor
    · rintro ⟨u, hu⟩
      rw [List.mem_map] at hu
      obtain ⟨⟨q', u'⟩, hmem, heq⟩ := hu
      by_cases hq : q' = k
      · rw [if_pos hq] at heq
        right
        exact (Prod.mk.injEq _ _ _ _ ▸ heq).1.symm
      · rw [if_neg hq] at heq
        obtain ⟨h1, h2⟩ := Prod.mk.injEq _ _ _ _ ▸ heq
        subst h1
        exact Or.inl ⟨u', h2 ▸ hmem⟩
    · rintro (⟨u, hu⟩ | hqk)
      · by_cases hq : q = k
        · rw [List.any_eq_true] at hany
          obtain ⟨kv0, hkv0, hk0⟩ := hany
          simp only [decide_eq_true_eq] at hk0
          refine ⟨v, List.mem_map.mpr ⟨kv0, hkv0, ?_⟩⟩
          rw [if_pos hk0, hq]
        · exact ⟨u, List.mem_map.mpr ⟨(q, u), hu, if_neg hq⟩⟩
      · rw [List.any_eq_true] at hany
        obtain ⟨kv0, hkv0, hk0⟩ := hany
        simp only [decide_eq_true_eq] at hk0
        refine ⟨v, List.mem_map.mpr ⟨kv0, hkv0, ?_⟩⟩
        rw [if_pos hk0, hqk]
  · constructor
    · rintro ⟨u, hu⟩
      rcases List.mem_append.mp hu with h | h
      · exact Or.inl ⟨u, h⟩
      · simp only [List.mem_singleton, Prod.mk.injEq] at h
        exact Or.inr h.1
    · rintro (⟨u, hu⟩ | rfl)
      · exact ⟨u, List.mem_append_left _ hu⟩
      · exact ⟨v, List.mem_append_right _ (List.mem_singleton.mpr rfl)⟩

theorem rowGet_none_of_eq {row : Row} {c q : String} (h : rowGet row c = none)
    (he : q = c) : ¬ (rowGet row q).isSome := by
  subst he
  simp [h]

/-- The keys of the filtered row object are exactly the columns that
exist in the row. -/
theorem filteredRow_keys (cols : List String) (row : Row) (q : String) :
    (∃ u, (q, u) ∈ filteredRow cols row) ↔
      (q ∈ cols ∧ (rowGet row q).isSome) := by
  have aux : ∀ (cs : List String) (d : List (String × PyValue)),
      (∃ u, (q, u) ∈ List.foldl
        (fun d c => match rowGet row c with
                    | some v => dictInsert d c v
                    | none => d) d cs) ↔
      ((∃ u, (q, u) ∈ d) ∨ (q ∈ cs ∧ (rowGet row q).isSome)) := by
    intro cs
    induction cs with
    | nil => simp
    | cons c cs ih =>
      intro d
      rw [List.foldl_cons]
      cases hg : rowGet row c with
      | none =>
        rw [ih]
        constructor
        · rintro (h | h)
          · exact Or.inl h
          · exact Or.inr ⟨List.mem_cons_of_mem c h.1, h.2⟩
        · rintro (h | ⟨hmem, hsome⟩)
          · exact Or.inl h
          · rcases List.mem_cons.mp hmem with rfl | h
            · exact absurd hsome (rowGet_none_of_eq hg rfl)
            · exact Or.inr ⟨h, hsome⟩
      | some v =>
        rw [ih, dictInsert_keys]
        constructor
        · rintro ((h | rfl) | h)
          · exact Or.inl h
          · exact Or.inr ⟨List.mem_cons_self _ _, by simp [hg]⟩
          · exact Or.inr ⟨List.mem_cons_of_mem c h.1, h.2⟩
        · rintro (h | ⟨hmem, hsome⟩)
          · exact Or.inl (Or.inl h)
          · rcases List.mem_cons.mp hmem with rfl | h
            · exact Or.inl (Or.inr rfl)
            · exact Or.inr ⟨h, hsome⟩
  have := aux cols []
  simpa [filteredRow] using this

/-- C4: for every formatter configuration, every positive chunk size and
every non-empty row list, the concatenation of the chunks
`JSONFormatter.format_rows` yields parses as a JSON array whose elements
are, in order, the filtered row objects; the array length equals the
input row count, and each object's keys are exactly the columns that
exist in the corresponding row (missing columns are filtered out, not
defaulted to null). -/
theorem json_format_rows_valid (pretty : Bool) (cols : List String)
    (rows : List Row) (c : Nat) (hc : 1 ≤ c) (hr : rows ≠ []) :
    parseRowArrayDoc (concatAll (jsonFormatRows pretty cols rows c)) =
      some (rows.map (filteredRow cols)) ∧
    (rows.map (filteredRow cols)).length = rows.length ∧
    (∀ r ∈ rows, ∀ q, (∃ u, (q, u) ∈ filteredRow cols r) ↔
      (q ∈ cols ∧ (rowGet r q).isSome)) := by
  refine ⟨?_, by simp, fun r _ q => filteredRow_keys cols r q⟩
  have hsdata : (concatAll (jsonFormatRows pretty cols rows c)).data =
      '[' :: ((if pretty then ['\n'] else []) ++
        (((List.enumFrom 0 rows).map
            (fun p => (jsonRowChunk pretty cols rows.length p.1 p.2).data)).flatten ++
          ']' :: (if pretty then ['\n'] else []))) := by
    rw [data_concatAll]
    unfold jsonFormatRows
    rw [chunkList_flatten c hc rows]
    cases pretty with
    | true =>
      simp only [if_pos rfl, if_true, List.map_append, List.map_cons,
        List.map_nil, List.flatten_append, List.flatten_cons, List.flatten_nil,
        List.append_nil, List.map_map]
      simp only [List.append_assoc, Function.comp, List.enum, List.cons_append,
        List.nil_append]
      rfl
    | false =>
      simp only [if_neg Bool.false_ne_true, List.map_append, List.map_cons,
        List.map_nil, List.flatten_append, List.flatten_cons, List.flatten_nil,
        List.append_nil, List.map_map]
      simp only [List.append_assoc, Function.comp, List.enum, List.cons_append,
        List.nil_append]
      rfl
  obtain ⟨r0, rows', rfl⟩ : ∃ r0 rows', rows = r0 :: rows' := by
    cases rows with
    | nil => exact absurd rfl hr
    | cons r0 rows' => exact ⟨r0, rows', rfl⟩
  have hw0 : WsOnly (if pretty then ['\n'] else ([] : List Char)) := by
    cases pretty
    · exact wsOnly_nil
    · exact (wsOnly_iff_all _).mpr (by decide)
  -- bounds for the parser fuel
  set L := (List.enumFrom 0 (r0 :: rows')).map
    (fun p => (jsonRowChunk pretty cols (r0 :: rows').length p.1 p.2).data) with hL
  have hLlen : L.length = (r0 :: rows').length := by
    rw [hL, List.length_map, List.enumFrom_length]
  have hLelem : ∀ x ∈ L, 1 ≤ x.length := by
    intro x hx
    rw [hL] at hx
    obtain ⟨p, _, rfl⟩ := List.mem_map.mp hx
    have := jsonRowChunk_len pretty cols (r0 :: rows').length p.1 p.2
    omega
  have hcount : (r0 :: rows').length ≤ L.flatten.length := by
    rw [← hLlen]
    exact count_le_flatten_len L hLelem
  have hslen : L.flatten.length ≤
      (concatAll (jsonFormatRows pretty cols (r0 :: rows') c)).data.length := by
    rw [hsdata]
    simp only [List.length_cons, List.length_append]
    omega
  have hfuel : (r0 :: rows').length ≤
      (concatAll (jsonFormatRows pretty cols (r0 :: rows') c)).data.length := by
    omega
  have hm : ∀ r ∈ r0 :: rows', (filteredRow cols r).length ≤
      (concatAll (jsonFormatRows pretty cols (r0 :: rows') c)).data.length := by
    intro r hrm
    obtain ⟨i, hi⟩ := mem_enumFrom_of_mem (r0 :: rows') 0 r hrm
    have hchunk : (jsonRowChunk pretty cols (r0 :: rows').length i r).data ∈ L := by
      rw [hL]
      exact List.mem_map.mpr ⟨(i, r), hi, rfl⟩
    have h1 := single_le_flatten_len L _ hchunk
    have h2 := jsonRowChunk_len pretty cols (r0 :: rows').length i r
    omega
  -- the first object exposes an opening brace after whitespace
  obtain ⟨wb, S, hbrace, hwb⟩ := objModeData_brace pretty (filteredRow cols r0)
  have hitems := parseItems_chunks pretty cols (r0 :: rows') 0
    (r0 :: rows').length (if pretty then ['\n'] else [])
    (concatAll (jsonFormatRows pretty cols (r0 :: rows') c)).data.length
    (concatAll (jsonFormatRows pretty cols (r0 :: rows') c)).data.length
    (if pretty then ['\n'] else []) (List.cons_ne_nil r0 rows') (by simp)
    hfuel hm hw0
  rw [← hL] at hitems
  have hhead : ∃ Z, dropWs ((if pretty then ['\n'] else ([] : List Char)) ++
      (L.flatten ++ ']' :: (if pretty then ['\n'] else []))) = '{' :: Z := by
    rw [hL, List.enumFrom_cons, List.map_cons, List.flatten_cons,
      jsonRowChunk_data, hbrace]
    simp only [List.append_assoc, List.cons_append]
    rw [dropWs_ws_append hw0, dropWs_ws_append hwb,
      dropWs_not_ws (show isWsChar '{' = false by decide)]
    exact ⟨_, rfl⟩
  obtain ⟨Z, hZ⟩ := hhead
  have hlen_eq := congrArg List.length hsdata
  rw [hlen_eq] at hitems
  have htrail : dropWs (if pretty then ['\n'] else ([] : List Char)) = [] := by
    cases pretty <;> rfl
  unfold parseRowArrayDoc
  rw [hsdata]
  simp only [dropWs_not_ws (show isWsChar '[' = false by decide)]
  simp only [hZ, hitems, htrail, if_pos rfl]
  rfl

/-- Witness for `json_format_rows_valid` on a two-row table with chunk
size 1 in compact mode. -/
theorem json_format_rows_valid_witness :
    1 ≤ 1 ∧
    ([[("id", PyValue.int 1)], [("id", PyValue.int 2), ("x", PyValue.null)]] :
      List Row) ≠ [] ∧
    (parseRowArrayDoc (concatAll (jsonFormatRows false ["id", "x"]
        [[("id", PyValue.int 1)], [("id", PyValue.int 2), ("x", PyValue.null)]]
        1)) =
      some (([[("id", PyValue.int 1)],
        [("id", PyValue.int 2), ("x", PyValue.null)]] : List Row).map
          (filteredRow ["id", "x"])) ∧
    (([[("id", PyValue.int 1)],
        [("id", PyValue.int 2), ("x", PyValue.null)]] : List Row).map
          (filteredRow ["id", "x"])).length =
      ([[("id", PyValue.int 1)],
        [("id", PyValue.int 2), ("x", PyValue.null)]] : List Row).length ∧
    (∀ r ∈ ([[("id", PyValue.int 1)],
        [("id", PyValue.int 2), ("x", PyValue.null)]] : List Row), ∀ q,
      (∃ u, (q, u) ∈ filteredRow ["id", "x"] r) ↔
        (q ∈ ["id", "x"] ∧ (rowGet r q).isSome))) :=
  ⟨Nat.le_refl 1, by simp,
   json_format_rows_valid false ["id", "x"]
     [[("id", PyValue.int 1)], [("id", PyValue.int 2), ("x", PyValue.null)]]
     1 (Nat.le_refl 1) (by simp)⟩

end QueryTool
